import Mathlib

/-! # peekmask: a verification development

A shallow embedding of `peekmask.go` (package `peekmask`) and of the parts of
the Go runtime it calls, followed by theorems about `maskString`,
`Masker.Mask` and `Mask`.

Modelling conventions.

* A Go `string` is the list of its bytes (`List Nat`, each byte below 256);
  its length fits an `int`, so `utf8.RuneCountInString` never wraps.
* A `rune` (`int32`) and an `int` (64 bit, two's complement) are `Int`;
  every `+` and `-` on `int` is wrapped by `wrapInt64`.
* A `float64` is a `Float64`: NaN, an infinity, or `(-1)^neg * m * 2^e`;
  conversions and division round to nearest, ties to even, as IEEE 754
  binary64 does.
* A run-time panic is `Except.error`; memory exhaustion is not modelled.
-/

namespace Peekmask

/-! ## Go `int` -/

/-- Two's complement wrap-around of a mathematical integer to 64 bits. -/
def wrapInt64 (x : Int) : Int := (x + 2 ^ 63) % 2 ^ 64 - 2 ^ 63

/-- Go `a + b` on `int`. -/
def addInt (a b : Int) : Int := wrapInt64 (a + b)

/-- Go `a - b` on `int`. -/
def subInt (a b : Int) : Int := wrapInt64 (a - b)

/-! ## Go `float64` -/

/-- A `float64` value: NaN, a signed infinity, or the finite number
`(-1)^neg * m * 2^e` (a zero significand gives a signed zero). -/
inductive Float64 where
  | nan
  | inf (neg : Bool)
  | fin (neg : Bool) (m : Nat) (e : Int)
deriving DecidableEq, Repr

namespace Float64

/-- The finite values binary64 can hold: 53 bits of significand and an
exponent of the last place between -1074 and 971. -/
def valid : Float64 → Prop
  | nan => True
  | inf _ => True
  | fin _ m e => m < 2 ^ 53 ∧ -1074 ≤ e ∧ e ≤ 971

instance (r : Float64) : Decidable r.valid := by
  cases r <;> unfold valid <;> infer_instance

/-- The rational number a finite value stands for (0 for NaN and infinities). -/
def toRat : Float64 → ℚ
  | fin neg m e => (if neg then -1 else 1) * (m : ℚ) * (2 : ℚ) ^ e
  | _ => 0

/-- Repeated halving: the number of halvings that bring `n` below 2, with
`fuel` bounding the number of iterations. -/
def log2Aux : Nat → Nat → Nat
  | 0, _ => 0
  | fuel + 1, n => if n < 2 then 0 else log2Aux fuel (n / 2) + 1

/-- The position of the leading bit of a positive `n`, `floor (log2 n)`. -/
def log2 (n : Nat) : Nat := log2Aux n n

/-- The integer `floor (log2 (a / b))` for positive `a` and `b`. -/
def floorLog2 (a b : Nat) : Int :=
  let d : Int := (log2 a : Int) - (log2 b : Int)
  if b * 2 ^ d.toNat ≤ a * 2 ^ (-d).toNat then d else d - 1

/-- The quotient `num / den` rounded to the nearest integer, ties to even. -/
def roundHalfEven (num den : Nat) : Nat :=
  let k := num / den
  let rem := num % den
  if 2 * rem < den then k
  else if den < 2 * rem then k + 1
  else if k % 2 = 0 then k else k + 1

/-- The rounded magnitude `m * 2^e`, a significand of 53 bits (or `2^53`
after a carry) at exponent `e`, is beyond the largest binary64
`(2^53 - 1) * 2^971`. -/
def overflows (m : Nat) (e : Int) : Bool := decide (971 < e ∨ (e = 971 ∧ 2 ^ 53 ≤ m))

/-- The exponent of the last place of the binary64 nearest to `a / b`:
52 below the leading bit, and never below the subnormal exponent -1074. -/
def ulpExp (a b : Nat) : Int := max (floorLog2 a b - 52) (-1074)

/-- The significand of the binary64 nearest to `a / b`: the quotient
`a / (b * 2^ulpExp)` rounded to the nearest integer, ties to even. -/
def roundSig (a b : Nat) : Nat :=
  roundHalfEven (a * 2 ^ (-(ulpExp a b)).toNat) (b * 2 ^ (ulpExp a b).toNat)

/-- The binary64 nearest to the rational `(-1)^neg * a / b` (`0 < b`), ties
to even, with gradual underflow and overflow to infinity. -/
def roundRat (neg : Bool) (a b : Nat) : Float64 :=
  if a = 0 then fin neg 0 0
  else if overflows (roundSig a b) (ulpExp a b) then inf neg
  else fin neg (roundSig a b) (ulpExp a b)

/-- Go `float64(x)` for an `int` `x`. -/
def ofInt (x : Int) : Float64 := roundRat (decide (x < 0)) x.natAbs 1

/-- A floating-point constant written as the decimal fraction `num / den`,
converted to `float64`. -/
def ofConst (num den : Nat) : Float64 := roundRat false num den

/-- Go `x / y` on `float64`. -/
def div : Float64 → Float64 → Float64
  | nan, _ => nan
  | _, nan => nan
  | inf _, inf _ => nan
  | inf s, fin t _ _ => inf (xor s t)
  | fin s _ _, inf t => fin (xor s t) 0 0
  | fin s m e, fin t n f =>
    if n = 0 then (if m = 0 then nan else inf (xor s t))
    else roundRat (xor s t) (m * 2 ^ (e - f).toNat) (n * 2 ^ (f - e).toNat)

/-- The integer `(-1)^neg * m * 2^(e - k)`, for `k ≤ e`. -/
def scaled (neg : Bool) (m : Nat) (e k : Int) : Int :=
  (if neg then -1 else 1) * ((m * 2 ^ (e - k).toNat : Nat) : Int)

/-- Go `x < y` on `float64`. -/
def lt : Float64 → Float64 → Bool
  | nan, _ => false
  | _, nan => false
  | inf s, inf t => s && !t
  | inf s, fin _ _ _ => s
  | fin _ _ _, inf t => !t
  | fin s m e, fin t n f => decide (scaled s m e (min e f) < scaled t n f (min e f))

/-- The value of `r` is at most the rational `x` (never so for NaN). -/
def leRat : Float64 → ℚ → Prop
  | nan, _ => False
  | inf neg, _ => neg = true
  | fin neg m e, x => toRat (fin neg m e) ≤ x

/-- The value of `r` is exactly the rational `x`. -/
def eqRat : Float64 → ℚ → Prop
  | fin neg m e, x => toRat (fin neg m e) = x
  | _, _ => False

/-- The rational `x` is strictly below the value of `r` (never so for NaN). -/
def gtRat : Float64 → ℚ → Prop
  | nan, _ => False
  | inf neg, _ => neg = false
  | fin neg m e, x => x < toRat (fin neg m e)

instance (r : Float64) (x : ℚ) : Decidable (r.gtRat x) := by
  cases r <;> unfold gtRat <;> infer_instance

/-- A value that is NaN or carries no minus sign. -/
def unsignedOrNan : Float64 → Prop
  | nan => True
  | inf s => s = false
  | fin s _ _ => s = false

end Float64

/-! ## Go strings and runes -/

/-- The replacement character U+FFFD, `utf8.RuneError`. -/
def runeError : Int := 0xFFFD

/-- A rune Go can encode: a Unicode scalar value. -/
def validRune (r : Int) : Prop :=
  0 ≤ r ∧ r ≤ 0x10FFFF ∧ ¬ (0xD800 ≤ r ∧ r ≤ 0xDFFF)

instance (r : Int) : Decidable (validRune r) := by
  unfold validRune; infer_instance

/-- What `string(r)` followed by decoding gives back: `r` itself for a rune
Go can encode, U+FFFD otherwise. -/
def normRune (r : Int) : Int := if validRune r then r else runeError

/-- A UTF-8 continuation byte, `locb <= b && b <= hicb`. -/
def isCont (b : Nat) : Bool := decide (0x80 ≤ b) && decide (b ≤ 0xBF)

/-- The rune at the start of a non-empty string and its width in bytes
(`decoderune` of the Go runtime, with the ASCII fast path of `range`):
an erroneous or short encoding is U+FFFD of width 1. -/
def decodeRune : List Nat → Int × Nat
  | [] => (runeError, 1)
  | b0 :: rest =>
    if b0 < 0x80 then ((b0 : Int), 1)
    else if 0xC0 ≤ b0 ∧ b0 < 0xE0 then
      match rest with
      | b1 :: _ =>
        let r := (b0 % 0x20) * 64 + b1 % 0x40
        if isCont b1 ∧ 0x7F < r then ((r : Int), 2) else (runeError, 1)
      | _ => (runeError, 1)
    else if 0xE0 ≤ b0 ∧ b0 < 0xF0 then
      match rest with
      | b1 :: b2 :: _ =>
        let r := (b0 % 0x10) * 4096 + (b1 % 0x40) * 64 + b2 % 0x40
        if isCont b1 ∧ isCont b2 ∧ 0x7FF < r ∧ ¬ (0xD800 ≤ r ∧ r ≤ 0xDFFF) then ((r : Int), 3)
        else (runeError, 1)
      | _ => (runeError, 1)
    else if 0xF0 ≤ b0 ∧ b0 < 0xF8 then
      match rest with
      | b1 :: b2 :: b3 :: _ =>
        let r := (b0 % 0x08) * 262144 + (b1 % 0x40) * 4096 + (b2 % 0x40) * 64 + b3 % 0x40
        if isCont b1 ∧ isCont b2 ∧ isCont b3 ∧ 0xFFFF < r ∧ r ≤ 0x10FFFF then ((r : Int), 4)
        else (runeError, 1)
      | _ => (runeError, 1)
    else (runeError, 1)

/-- The loop `for _, r := range s` collecting every rune, with `fuel`
bounding the number of iterations. -/
def stringToRunesAux : Nat → List Nat → List Int
  | 0, _ => []
  | fuel + 1, s =>
    match s with
    | [] => []
    | b :: rest => (decodeRune (b :: rest)).1 :: stringToRunesAux fuel ((b :: rest).drop (decodeRune (b :: rest)).2)

/-- Go `[]rune(s)`. -/
def stringToRunes (s : List Nat) : List Int := stringToRunesAux s.length s

/-- The counting loop of `utf8.RuneCountInString`, with `fuel` bounding the
number of iterations. -/
def runeCountAux : Nat → List Nat → Nat
  | 0, _ => 0
  | fuel + 1, s =>
    match s with
    | [] => 0
    | b :: rest => 1 + runeCountAux fuel ((b :: rest).drop (decodeRune (b :: rest)).2)

/-- Go `utf8.RuneCountInString(s)`: erroneous and short encodings count as
single runes of width 1 byte. -/
def RuneCountInString (s : List Nat) : Nat := runeCountAux s.length s

/-- The UTF-8 encoding of a rune (`encoderune` of the Go runtime): a rune
that is out of range or a surrogate is encoded as U+FFFD. -/
def encodeRune (r : Int) : List Nat :=
  let i := r.toNat
  if 0 ≤ r ∧ i ≤ 0x7F then [i]
  else if 0 ≤ r ∧ i ≤ 0x7FF then [0xC0 + i / 64 % 256, 0x80 + i % 64]
  else if r < 0 ∨ 0x10FFFF < i ∨ (0xD800 ≤ i ∧ i ≤ 0xDFFF) then [0xEF, 0xBF, 0xBD]
  else if i ≤ 0xFFFF then [0xE0 + i / 4096 % 256, 0x80 + i / 64 % 64, 0x80 + i % 64]
  else [0xF0 + i / 262144 % 256, 0x80 + i / 4096 % 64, 0x80 + i / 64 % 64, 0x80 + i % 64]

/-- Go `string(r)` for a rune `r`. -/
def runeToString (r : Int) : List Nat := encodeRune r

/-- Go `string(rs)` for a rune slice `rs`. -/
def runesToString : List Int → List Nat
  | [] => []
  | r :: rs => encodeRune r ++ runesToString rs

/-- Go `strings.Repeat(s, count)` for a non-negative `count`. -/
def stringsRepeat (s : List Nat) : Nat → List Nat
  | 0 => []
  | count + 1 => s ++ stringsRepeat s count

/-! ## Slices -/

/-- The run-time panics of slice expressions and index expressions. -/
inductive GoPanic where
  | sliceBounds
  | indexOutOfRange
deriving DecidableEq, Repr

deriving instance DecidableEq for Except

/-- Go `copy(dst[:hi], src[:hi])`: both slice expressions are checked, `dst`
first, then the first `hi` elements of `src` overwrite those of `dst`.
(A slice expression is checked against the capacity. That of
`make([]rune, n)` is `n`; that of `[]rune(s)` is at least its length, which
in `maskString` is the length of `dst`, so its check never decides.) -/
def copyPrefix (dst src : List Int) (hi : Int) : Except GoPanic (List Int) :=
  if 0 ≤ hi ∧ hi ≤ dst.length then
    if 0 ≤ hi ∧ hi ≤ src.length then
      .ok (src.take hi.toNat ++ dst.drop hi.toNat)
    else .error .sliceBounds
  else .error .sliceBounds

/-- Go `copy(dst[lo:], src[lo:])`: both slice expressions are checked
against the lengths, `dst` first, then the elements of `src` from `lo` on
overwrite those of `dst`. -/
def copySuffix (dst src : List Int) (lo : Int) : Except GoPanic (List Int) :=
  if 0 ≤ lo ∧ lo ≤ dst.length then
    if 0 ≤ lo ∧ lo ≤ src.length then
      .ok (dst.take lo.toNat ++ (src.drop lo.toNat).take (dst.length - lo.toNat)
        ++ dst.drop (lo.toNat + min (dst.length - lo.toNat) (src.length - lo.toNat)))
    else .error .sliceBounds
  else .error .sliceBounds

/-- The loop `for i := 0; i < maskCount; i++ { result[prefixLength+i] = maskChar }`,
entered at index `i` with `todo` iterations left. -/
def maskLoop (maskChar prefixLength : Int) : Nat → Int → List Int → Except GoPanic (List Int)
  | 0, _, result => .ok result
  | todo + 1, i, result =>
    let idx := addInt prefixLength i
    if 0 ≤ idx ∧ idx < result.length then
      maskLoop maskChar prefixLength todo (i + 1) (result.set idx.toNat maskChar)
    else .error .indexOutOfRange

/-! ## peekmask.go -/

/-- Masker holds the configuration for masking strings. -/
structure Masker where
  MaskChar : Int
  PrefixLength : Int
  SuffixLength : Int
  MinMaskRatio : Float64
deriving DecidableEq, Repr

/-- New creates a new Masker with the specified configuration. -/
def New (maskChar : Int) (prefixLength suffixLength : Int) (minMaskRatio : Float64) : Masker :=
  { MaskChar := maskChar, PrefixLength := prefixLength, SuffixLength := suffixLength,
    MinMaskRatio := minMaskRatio }

/-- Default returns a Masker with default settings:
MaskChar '*', PrefixLength 2, SuffixLength 2, MinMaskRatio 0.3. -/
def Default : Masker :=
  { MaskChar := 0x2A, PrefixLength := 2, SuffixLength := 2, MinMaskRatio := Float64.ofConst 3 10 }

/-- The shared instance for the global `Mask` function. -/
def defaultMasker : Masker := Default

/-- The body of `maskString`. -/
def maskString (s : List Nat) (maskChar : Int) (prefixLength suffixLength : Int)
    (minMaskRatio : Float64) : Except GoPanic (List Nat) :=
  let length : Int := (RuneCountInString s : Int)
  if length = 0 then .ok s
  else if addInt prefixLength suffixLength ≥ length then
    .ok (stringsRepeat (runeToString maskChar) length.toNat)
  else
    let maskCount := subInt (subInt length prefixLength) suffixLength
    let maskRatio := Float64.div (Float64.ofInt maskCount) (Float64.ofInt length)
    if Float64.lt maskRatio minMaskRatio then
      .ok (stringsRepeat (runeToString maskChar) length.toNat)
    else
      let runes := stringToRunes s
      let result : List Int := List.replicate length.toNat 0
      match copyPrefix result runes prefixLength with
      | .error p => .error p
      | .ok result =>
        match maskLoop maskChar prefixLength maskCount.toNat 0 result with
        | .error p => .error p
        | .ok result =>
          match copySuffix result runes (subInt length suffixLength) with
          | .error p => .error p
          | .ok result => .ok (runesToString result)

/-- Mask masks the given string. -/
def Masker.Mask (m : Masker) (s : List Nat) : Except GoPanic (List Nat) :=
  maskString s m.MaskChar m.PrefixLength m.SuffixLength m.MinMaskRatio

/-- The package-level `Mask`: the default mask character and ratio with the
caller's prefix and suffix lengths. -/
def Mask (s : List Nat) (prefixLength suffixLength : Int) : Except GoPanic (List Nat) :=
  maskString s defaultMasker.MaskChar prefixLength suffixLength defaultMasker.MinMaskRatio

/-! ## The specification's words, on code points -/

/-- The partial mask of a sequence of code points (rule 4): the first `p`
code points, `length - p - q` copies of the mask symbol, the last `q` code
points. -/
def partialMask (runes : List Int) (c : Int) (p q : Nat) : List Int :=
  runes.take p ++ List.replicate (runes.length - p - q) c ++ runes.drop (runes.length - q)

/-- The mask of a sequence of code points, rule by rule as section 4 of the
specification words it, for non-negative `prefixVisible` and
`suffixVisible`: rule 2 on the sum of the two counts, rule 3 on
`maskRatio = maskCount / length` in real division, compared exactly with the
value of `minMaskRatio`. -/
def maskCodePoints (runes : List Int) (c : Int) (p q : Nat) (minMaskRatio : Float64) :
    List Int :=
  if runes.length = 0 then runes
  else if p + q ≥ runes.length then List.replicate runes.length c
  else if minMaskRatio.gtRat
      ((((runes.length : Int) - p - q : Int) : ℚ) / ((runes.length : Nat) : ℚ)) then
    List.replicate runes.length c
  else partialMask runes c p q

/-- The same four rules on code points, with the ratio of rule 3 computed as
the program computes it: the `float64` quotient
`float64(maskCount) / float64(length)`, rounded to nearest, compared with
`minMaskRatio` by the `float64` comparison. -/
def maskCodePointsF64 (runes : List Int) (c : Int) (p q : Nat) (minMaskRatio : Float64) :
    List Int :=
  if runes.length = 0 then runes
  else if p + q ≥ runes.length then List.replicate runes.length c
  else if Float64.lt (Float64.div (Float64.ofInt ((runes.length : Int) - p - q))
      (Float64.ofInt (runes.length : Int))) minMaskRatio then
    List.replicate runes.length c
  else partialMask runes c p q

/-! ## UTF-8 decoding and encoding -/

theorem normRune_of_valid {r : Int} (h : validRune r) : normRune r = r := by
  simp [normRune, h]

theorem decodeRune_width (s : List Nat) : 1 ≤ (decodeRune s).2 ∧ (decodeRune s).2 ≤ 4 := by
  unfold decodeRune
  repeat' split
  all_goals (try dsimp only)
  all_goals (try split_ifs)
  all_goals simp

theorem decodeRune_valid (s : List Nat) : validRune (decodeRune s).1 := by
  unfold decodeRune
  repeat' split
  all_goals (try dsimp only)
  all_goals (try split_ifs)
  all_goals simp only [validRune, runeError]
  all_goals omega

theorem stringToRunesAux_fuel (fuel : Nat) : ∀ (s : List Nat), s.length ≤ fuel →
    stringToRunesAux fuel s = stringToRunesAux s.length s := by
  induction fuel using Nat.strong_induction_on with
  | _ fuel ih =>
    intro s hs
    cases s with
    | nil => cases fuel <;> simp [stringToRunesAux]
    | cons b rest =>
      cases fuel with
      | zero => simp at hs
      | succ fuel =>
        have hw := decodeRune_width (b :: rest)
        have hlen : ((b :: rest).drop (decodeRune (b :: rest)).2).length ≤ rest.length := by
          simp only [List.length_drop, List.length_cons]; omega
        simp only [stringToRunesAux, List.length_cons]
        rw [ih fuel (by omega) _ (by simp only [List.length_cons] at hs; omega),
          ih rest.length (by simp only [List.length_cons] at hs; omega) _ hlen]

theorem stringToRunes_nil : stringToRunes [] = [] := rfl

theorem stringToRunes_cons (b : Nat) (rest : List Nat) :
    stringToRunes (b :: rest) = (decodeRune (b :: rest)).1 ::
      stringToRunes ((b :: rest).drop (decodeRune (b :: rest)).2) := by
  have hw := decodeRune_width (b :: rest)
  have hlen : ((b :: rest).drop (decodeRune (b :: rest)).2).length ≤ rest.length := by
    simp only [List.length_drop, List.length_cons]; omega
  simp only [stringToRunes, List.length_cons, stringToRunesAux]
  rw [stringToRunesAux_fuel rest.length _ hlen]

theorem runeCountAux_eq (fuel : Nat) : ∀ (s : List Nat),
    runeCountAux fuel s = (stringToRunesAux fuel s).length := by
  induction fuel with
  | zero => intro s; simp [runeCountAux, stringToRunesAux]
  | succ fuel ih =>
    intro s
    cases s with
    | nil => simp [runeCountAux, stringToRunesAux]
    | cons b rest => simp [runeCountAux, stringToRunesAux, ih]; omega

theorem runeCount_eq_length (s : List Nat) :
    RuneCountInString s = (stringToRunes s).length :=
  runeCountAux_eq _ _

theorem runeCount_eq_zero {s : List Nat} (h : RuneCountInString s = 0) : s = [] := by
  cases s with
  | nil => rfl
  | cons b rest => rw [runeCount_eq_length, stringToRunes_cons] at h; simp at h

theorem stringToRunes_valid_aux (n : Nat) : ∀ (s : List Nat), s.length ≤ n →
    ∀ r ∈ stringToRunes s, validRune r := by
  induction n with
  | zero =>
    intro s hs r hr
    have : s = [] := List.length_eq_zero.1 (by omega)
    subst this
    simp [stringToRunes_nil] at hr
  | succ n ih =>
    intro s hs r hr
    cases s with
    | nil => simp [stringToRunes_nil] at hr
    | cons b rest =>
      have hw := decodeRune_width (b :: rest)
      rw [stringToRunes_cons] at hr
      rcases List.mem_cons.1 hr with h1 | h1
      · rw [h1]; exact decodeRune_valid _
      · refine ih _ ?_ r h1
        simp only [List.length_drop, List.length_cons] at hs ⊢; omega

theorem stringToRunes_valid (s : List Nat) : ∀ r ∈ stringToRunes s, validRune r :=
  stringToRunes_valid_aux s.length s (le_refl _)

theorem encodeRune_ne_nil (r : Int) : encodeRune r ≠ [] := by
  unfold encodeRune; dsimp only; split_ifs <;> simp

theorem decodeRune_replacement (rest : List Nat) :
    decodeRune (0xEF :: 0xBF :: 0xBD :: rest) = (runeError, 3) := by
  simp [decodeRune, isCont, runeError]

theorem decodeRune_one (b : Nat) (rest : List Nat) (h : b < 0x80) :
    decodeRune (b :: rest) = ((b : Int), 1) := by
  simp only [decodeRune, if_pos h]

theorem decodeRune_two (b0 b1 : Nat) (rest : List Nat) (h0 : 0xC0 ≤ b0 ∧ b0 < 0xE0)
    (h1 : 0x80 ≤ b1 ∧ b1 ≤ 0xBF) (hr : 0x7F < (b0 % 0x20) * 64 + b1 % 0x40) :
    decodeRune (b0 :: b1 :: rest) = ((((b0 % 0x20) * 64 + b1 % 0x40 : Nat) : Int), 2) := by
  have hc1 : isCont b1 = true := by simp [isCont, h1.1, h1.2]
  simp only [decodeRune]
  rw [if_neg (by omega), if_pos h0, if_pos ⟨hc1, hr⟩]

theorem decodeRune_three (b0 b1 b2 : Nat) (rest : List Nat) (h0 : 0xE0 ≤ b0 ∧ b0 < 0xF0)
    (h1 : 0x80 ≤ b1 ∧ b1 ≤ 0xBF) (h2 : 0x80 ≤ b2 ∧ b2 ≤ 0xBF)
    (hr : 0x7FF < (b0 % 0x10) * 4096 + (b1 % 0x40) * 64 + b2 % 0x40)
    (hs : ¬ (0xD800 ≤ (b0 % 0x10) * 4096 + (b1 % 0x40) * 64 + b2 % 0x40 ∧
      (b0 % 0x10) * 4096 + (b1 % 0x40) * 64 + b2 % 0x40 ≤ 0xDFFF)) :
    decodeRune (b0 :: b1 :: b2 :: rest) =
      ((((b0 % 0x10) * 4096 + (b1 % 0x40) * 64 + b2 % 0x40 : Nat) : Int), 3) := by
  have hc1 : isCont b1 = true := by simp [isCont, h1.1, h1.2]
  have hc2 : isCont b2 = true := by simp [isCont, h2.1, h2.2]
  simp only [decodeRune]
  rw [if_neg (by omega), if_neg (by omega), if_pos h0, if_pos ⟨hc1, hc2, hr, hs⟩]

theorem decodeRune_four (b0 b1 b2 b3 : Nat) (rest : List Nat) (h0 : 0xF0 ≤ b0 ∧ b0 < 0xF8)
    (h1 : 0x80 ≤ b1 ∧ b1 ≤ 0xBF) (h2 : 0x80 ≤ b2 ∧ b2 ≤ 0xBF) (h3 : 0x80 ≤ b3 ∧ b3 ≤ 0xBF)
    (hr : 0xFFFF < (b0 % 0x08) * 262144 + (b1 % 0x40) * 4096 + (b2 % 0x40) * 64 + b3 % 0x40)
    (hm : (b0 % 0x08) * 262144 + (b1 % 0x40) * 4096 + (b2 % 0x40) * 64 + b3 % 0x40 ≤ 0x10FFFF) :
    decodeRune (b0 :: b1 :: b2 :: b3 :: rest) =
      ((((b0 % 0x08) * 262144 + (b1 % 0x40) * 4096 + (b2 % 0x40) * 64 + b3 % 0x40 : Nat) : Int), 4) := by
  have hc1 : isCont b1 = true := by simp [isCont, h1.1, h1.2]
  have hc2 : isCont b2 = true := by simp [isCont, h2.1, h2.2]
  have hc3 : isCont b3 = true := by simp [isCont, h3.1, h3.2]
  simp only [decodeRune]
  rw [if_neg (by omega), if_neg (by omega), if_neg (by omega), if_pos h0,
    if_pos ⟨hc1, hc2, hc3, hr, hm⟩]

theorem decodeRune_encodeRune (r : Int) (rest : List Nat) :
    decodeRune (encodeRune r ++ rest) = (normRune r, (encodeRune r).length) := by
  by_cases hneg : r < 0
  · have h1 : encodeRune r = [0xEF, 0xBF, 0xBD] := by
      unfold encodeRune; dsimp only
      rw [if_neg (by omega), if_neg (by omega), if_pos (Or.inl hneg)]
    have h2 : normRune r = runeError := by
      unfold normRune validRune; rw [if_neg (by omega)]
    rw [h1, h2]; exact decodeRune_replacement rest
  · obtain ⟨i, rfl⟩ : ∃ i : Nat, r = (i : Int) := ⟨r.toNat, by omega⟩
    by_cases c1 : i ≤ 0x7F
    · have h1 : encodeRune (i : Int) = [i] := by
        unfold encodeRune; dsimp only
        rw [if_pos ⟨by omega, by simpa using c1⟩]; simp
      have h2 : normRune (i : Int) = (i : Int) := normRune_of_valid (by unfold validRune; omega)
      rw [h1, h2]; exact decodeRune_one i rest (by omega)
    by_cases c2 : i ≤ 0x7FF
    · have h1 : encodeRune (i : Int) = [0xC0 + i / 64 % 256, 0x80 + i % 64] := by
        unfold encodeRune; dsimp only
        rw [if_neg (by simp; omega), if_pos ⟨by omega, by simpa using c2⟩]; simp
      have h2 : normRune (i : Int) = (i : Int) := normRune_of_valid (by unfold validRune; omega)
      rw [h1, h2, List.cons_append, List.cons_append, List.nil_append,
        decodeRune_two _ _ rest (by omega) (by omega) (by omega)]
      refine Prod.ext ?_ rfl
      show (((0xC0 + i / 64 % 256) % 0x20 * 64 + (0x80 + i % 64) % 0x40 : Nat) : Int) = (i : Int)
      omega
    by_cases c3 : 0x10FFFF < i ∨ (0xD800 ≤ i ∧ i ≤ 0xDFFF)
    · have h1 : encodeRune (i : Int) = [0xEF, 0xBF, 0xBD] := by
        unfold encodeRune; dsimp only
        rw [if_neg (by simp; omega), if_neg (by simp; omega), if_pos (by simp; omega)]
      have h2 : normRune (i : Int) = runeError := by
        unfold normRune validRune; rw [if_neg (by omega)]
      rw [h1, h2]; exact decodeRune_replacement rest
    by_cases c4 : i ≤ 0xFFFF
    · have h1 : encodeRune (i : Int) =
          [0xE0 + i / 4096 % 256, 0x80 + i / 64 % 64, 0x80 + i % 64] := by
        unfold encodeRune; dsimp only
        rw [if_neg (by simp; omega), if_neg (by simp; omega), if_neg (by simp; omega),
          if_pos (by simpa using c4)]; simp
      have h2 : normRune (i : Int) = (i : Int) := normRune_of_valid (by unfold validRune; omega)
      rw [h1, h2, List.cons_append, List.cons_append, List.cons_append, List.nil_append,
        decodeRune_three _ _ _ rest (by omega) (by omega) (by omega) (by omega) (by omega)]
      refine Prod.ext ?_ rfl
      show (((0xE0 + i / 4096 % 256) % 0x10 * 4096 + (0x80 + i / 64 % 64) % 0x40 * 64
        + (0x80 + i % 64) % 0x40 : Nat) : Int) = (i : Int)
      omega
    · have h1 : encodeRune (i : Int) =
          [0xF0 + i / 262144 % 256, 0x80 + i / 4096 % 64, 0x80 + i / 64 % 64, 0x80 + i % 64] := by
        unfold encodeRune; dsimp only
        rw [if_neg (by simp; omega), if_neg (by simp; omega), if_neg (by simp; omega),
          if_neg (by simpa using c4)]; simp
      have h2 : normRune (i : Int) = (i : Int) := normRune_of_valid (by unfold validRune; omega)
      rw [h1, h2, List.cons_append, List.cons_append, List.cons_append, List.cons_append,
        List.nil_append,
        decodeRune_four _ _ _ _ rest (by omega) (by omega) (by omega) (by omega) (by omega)
          (by omega)]
      refine Prod.ext ?_ rfl
      show (((0xF0 + i / 262144 % 256) % 0x08 * 262144 + (0x80 + i / 4096 % 64) % 0x40 * 4096
        + (0x80 + i / 64 % 64) % 0x40 * 64 + (0x80 + i % 64) % 0x40 : Nat) : Int) = (i : Int)
      omega

theorem stringToRunes_encodeRune_append (r : Int) (rest : List Nat) :
    stringToRunes (encodeRune r ++ rest) = normRune r :: stringToRunes rest := by
  have hne := encodeRune_ne_nil r
  cases h : encodeRune r with
  | nil => exact absurd h hne
  | cons b tl =>
    rw [List.cons_append, stringToRunes_cons, ← List.cons_append, ← h, decodeRune_encodeRune]
    simp

theorem stringToRunes_runesToString (rs : List Int) :
    stringToRunes (runesToString rs) = rs.map normRune := by
  induction rs with
  | nil => rfl
  | cons r rs ih => simp [runesToString, stringToRunes_encodeRune_append, ih]

theorem stringToRunes_runesToString_valid (rs : List Int) (h : ∀ r ∈ rs, validRune r) :
    stringToRunes (runesToString rs) = rs := by
  rw [stringToRunes_runesToString]
  conv_rhs => rw [← List.map_id rs]
  exact List.map_congr_left (fun r hr => normRune_of_valid (h r hr))

theorem stringsRepeat_eq (c : Int) (n : Nat) :
    stringsRepeat (runeToString c) n = runesToString (List.replicate n c) := by
  induction n with
  | zero => rfl
  | succ n ih =>
    show runeToString c ++ stringsRepeat (runeToString c) n
      = encodeRune c ++ runesToString (List.replicate n c)
    rw [ih]; rfl

theorem stringToRunes_stringsRepeat (c : Int) (n : Nat) :
    stringToRunes (stringsRepeat (runeToString c) n) = List.replicate n (normRune c) := by
  rw [stringsRepeat_eq, stringToRunes_runesToString, List.map_replicate]

namespace Float64

/-! ## Rounding to binary64 -/

theorem two_zpow_pos (d : Int) : (0 : ℚ) < (2 : ℚ) ^ d := zpow_pos (by norm_num) d

theorem cast_pow_toNat_of_nonneg {d : Int} (h : 0 ≤ d) :
    (((2 : Nat) ^ d.toNat : Nat) : ℚ) = (2 : ℚ) ^ d := by
  have h1 : (d.toNat : Int) = d := Int.toNat_of_nonneg h
  rw [Nat.cast_pow, Nat.cast_ofNat, ← zpow_natCast, h1]

theorem cast_pow_toNat_of_nonpos {d : Int} (h : d ≤ 0) :
    (((2 : Nat) ^ d.toNat : Nat) : ℚ) = 1 := by
  have h1 : d.toNat = 0 := Int.toNat_eq_zero.2 h
  rw [h1]; simp

/-- Scaling numerator and denominator by the two halves of a power of 2. -/
theorem cast_scale (a b : Nat) (e : Int) :
    ((a * 2 ^ (-e).toNat : Nat) : ℚ) / ((b * 2 ^ e.toNat : Nat) : ℚ)
      = (a : ℚ) / (b : ℚ) * (2 : ℚ) ^ (-e) := by
  rcases le_total 0 e with h | h
  · rw [Nat.cast_mul, Nat.cast_mul, cast_pow_toNat_of_nonneg h,
      cast_pow_toNat_of_nonpos (by omega : -e ≤ 0), zpow_neg]
    field_simp
  · rw [Nat.cast_mul, Nat.cast_mul, cast_pow_toNat_of_nonneg (by omega : 0 ≤ -e),
      cast_pow_toNat_of_nonpos h, zpow_neg]
    field_simp
    ring

theorem log2Aux_spec (fuel : Nat) : ∀ n : Nat, 0 < n → n ≤ fuel →
    2 ^ log2Aux fuel n ≤ n ∧ n < 2 ^ (log2Aux fuel n + 1) := by
  induction fuel with
  | zero => intro n h1 h2; omega
  | succ fuel ih =>
    intro n h1 h2
    unfold log2Aux
    split_ifs with h
    · constructor <;> simp <;> omega
    · obtain ⟨ih1, ih2⟩ := ih (n / 2) (by omega) (by omega)
      rw [Nat.pow_succ] at ih2 ⊢
      rw [Nat.pow_succ]
      constructor <;> omega

theorem log2_spec (n : Nat) (h : 0 < n) : 2 ^ log2 n ≤ n ∧ n < 2 ^ (log2 n + 1) :=
  log2Aux_spec n n h (le_refl n)

theorem floorLog2_spec (a b : Nat) (ha : 0 < a) (hb : 0 < b) :
    (2 : ℚ) ^ (floorLog2 a b) ≤ (a : ℚ) / b ∧ (a : ℚ) / b < (2 : ℚ) ^ (floorLog2 a b + 1) := by
  have hbq : (0 : ℚ) < b := by exact_mod_cast hb
  have ha1 : ((2 ^ log2 a : Nat) : ℚ) ≤ a := by exact_mod_cast (log2_spec a ha).1
  have ha2 : (a : ℚ) < ((2 ^ (log2 a + 1) : Nat) : ℚ) := by exact_mod_cast (log2_spec a ha).2
  have hb1 : ((2 ^ log2 b : Nat) : ℚ) ≤ b := by exact_mod_cast (log2_spec b hb).1
  have hb2 : (b : ℚ) < ((2 ^ (log2 b + 1) : Nat) : ℚ) := by exact_mod_cast (log2_spec b hb).2
  rw [Nat.cast_pow, Nat.cast_ofNat, ← zpow_natCast] at ha1 ha2 hb1 hb2
  push_cast at ha2 hb2
  set la : Int := (log2 a : Int) with hla
  set lb : Int := (log2 b : Int) with hlb
  -- the quotient lies strictly between 2^(d-1) and 2^(d+1)
  have hlow : (2 : ℚ) ^ (la - lb - 1) < (a : ℚ) / b := by
    rw [lt_div_iff₀ hbq]
    calc (2 : ℚ) ^ (la - lb - 1) * b < (2 : ℚ) ^ (la - lb - 1) * (2 : ℚ) ^ (lb + 1) :=
          mul_lt_mul_of_pos_left hb2 (two_zpow_pos _)
      _ = (2 : ℚ) ^ la := by rw [← zpow_add₀ (by norm_num)]; congr 1; ring
      _ ≤ a := ha1
  have hhigh : (a : ℚ) / b < (2 : ℚ) ^ (la - lb + 1) := by
    rw [div_lt_iff₀ hbq]
    calc (a : ℚ) < (2 : ℚ) ^ (la + 1) := ha2
      _ = (2 : ℚ) ^ (la - lb + 1) * (2 : ℚ) ^ lb := by
          rw [← zpow_add₀ (by norm_num)]; congr 1; ring
      _ ≤ (2 : ℚ) ^ (la - lb + 1) * b := mul_le_mul_of_nonneg_left hb1 (two_zpow_pos _).le
  have htest : (b * 2 ^ (la - lb).toNat ≤ a * 2 ^ (-(la - lb)).toNat)
      ↔ (2 : ℚ) ^ (la - lb) ≤ (a : ℚ) / b := by
    have hden : (0 : ℚ) < ((b * 2 ^ (la - lb).toNat : Nat) : ℚ) := by
      exact_mod_cast Nat.mul_pos hb (pow_pos (by norm_num) _)
    rw [← Nat.cast_le (α := ℚ), ← one_le_div hden, cast_scale, zpow_neg,
      ← div_eq_mul_inv, le_div_iff₀ (two_zpow_pos _), one_mul]
  unfold floorLog2
  dsimp only
  rw [← hla, ← hlb]
  split_ifs with h
  · exact ⟨htest.1 h, hhigh⟩
  · refine ⟨hlow.le, ?_⟩
    have : la - lb - 1 + 1 = la - lb := by ring
    rw [this]
    exact lt_of_not_le (fun hc => h (htest.2 hc))

theorem roundHalfEven_ge (num den : Nat) : num / den ≤ roundHalfEven num den := by
  unfold roundHalfEven; dsimp only; split_ifs <;> omega

theorem roundHalfEven_le (num den : Nat) : roundHalfEven num den ≤ num / den + 1 := by
  unfold roundHalfEven; dsimp only; split_ifs <;> omega

theorem roundHalfEven_exact (num den : Nat) (h : num % den = 0) :
    roundHalfEven num den = num / den := by
  unfold roundHalfEven; dsimp only
  by_cases hd : den = 0
  · subst hd; simp at h; subst h; simp
  · rw [if_pos (by omega)]

theorem le_roundHalfEven {num den j : Nat} (hden : 0 < den) (h : j * den ≤ num) :
    j ≤ roundHalfEven num den :=
  le_trans ((Nat.le_div_iff_mul_le hden).2 h) (roundHalfEven_ge num den)

theorem roundHalfEven_le_of {num den j : Nat} (hden : 0 < den) (h : num ≤ j * den) :
    roundHalfEven num den ≤ j := by
  rcases Nat.lt_or_ge num (j * den) with hlt | hge
  · have : num / den < j := (Nat.div_lt_iff_lt_mul hden).2 hlt
    have := roundHalfEven_le num den
    omega
  · have heq : num = j * den := le_antisymm h hge
    subst heq
    rw [roundHalfEven_exact _ _ (Nat.mul_mod_left j den), Nat.mul_div_cancel _ hden]

theorem roundRat_eq (neg : Bool) (a b : Nat) (ha : 0 < a) :
    roundRat neg a b = if overflows (roundSig a b) (ulpExp a b) then inf neg
      else fin neg (roundSig a b) (ulpExp a b) := by
  unfold roundRat
  rw [if_neg (by omega)]

theorem toRat_fin_pos (m : Nat) (e : Int) : toRat (fin false m e) = (m : ℚ) * (2 : ℚ) ^ e := by
  simp [toRat]

theorem toRat_fin_neg (m : Nat) (e : Int) : toRat (fin true m e) = -((m : ℚ) * (2 : ℚ) ^ e) := by
  simp [toRat]

/-- A natural number `j` is below the rounded significand as soon as
`j * 2^e` is below `a / b`. -/
theorem le_roundSig (a b j : Nat) (hb : 0 < b)
    (h : (j : ℚ) * (2 : ℚ) ^ (ulpExp a b) ≤ (a : ℚ) / b) : j ≤ roundSig a b := by
  have hden : 0 < b * 2 ^ (ulpExp a b).toNat := Nat.mul_pos hb (pow_pos (by norm_num) _)
  have hdenq : (0 : ℚ) < ((b * 2 ^ (ulpExp a b).toNat : Nat) : ℚ) := by exact_mod_cast hden
  refine le_roundHalfEven hden ?_
  rw [← Nat.cast_le (α := ℚ), Nat.cast_mul j, ← le_div_iff₀ hdenq, cast_scale, zpow_neg,
    ← div_eq_mul_inv, le_div_iff₀ (two_zpow_pos _)]
  exact h

/-- The rounded significand is below a natural number `j` as soon as
`a / b` is below `j * 2^e`. -/
theorem roundSig_le (a b j : Nat) (hb : 0 < b)
    (h : (a : ℚ) / b ≤ (j : ℚ) * (2 : ℚ) ^ (ulpExp a b)) : roundSig a b ≤ j := by
  have hden : 0 < b * 2 ^ (ulpExp a b).toNat := Nat.mul_pos hb (pow_pos (by norm_num) _)
  have hdenq : (0 : ℚ) < ((b * 2 ^ (ulpExp a b).toNat : Nat) : ℚ) := by exact_mod_cast hden
  refine roundHalfEven_le_of hden ?_
  rw [← Nat.cast_le (α := ℚ), Nat.cast_mul j, ← div_le_iff₀ hdenq, cast_scale, zpow_neg,
    ← div_eq_mul_inv, div_le_iff₀ (two_zpow_pos _)]
  exact h

/-- The rounded significand has at most 53 bits, or is `2^53` after a carry. -/
theorem roundSig_le_pow (a b : Nat) (ha : 0 < a) (hb : 0 < b) : roundSig a b ≤ 2 ^ 53 := by
  refine roundSig_le a b (2 ^ 53) hb ?_
  have h1 := (floorLog2_spec a b ha hb).2
  refine le_trans h1.le ?_
  have h2 : floorLog2 a b + 1 ≤ 53 + ulpExp a b := by unfold ulpExp; omega
  calc (2 : ℚ) ^ (floorLog2 a b + 1) ≤ (2 : ℚ) ^ (53 + ulpExp a b) :=
        zpow_le_zpow_right₀ (by norm_num) h2
    _ = ((2 ^ 53 : Nat) : ℚ) * (2 : ℚ) ^ (ulpExp a b) := by
        rw [zpow_add₀ (by norm_num)]; norm_num

theorem pow_le_roundSig (a b : Nat) (ha : 0 < a) (hb : 0 < b)
    (he : ulpExp a b = floorLog2 a b - 52) : 2 ^ 52 ≤ roundSig a b := by
  refine le_roundSig a b (2 ^ 52) hb ?_
  have h1 := (floorLog2_spec a b ha hb).1
  refine le_trans ?_ h1
  have h2 : floorLog2 a b = 52 + ulpExp a b := by omega
  rw [h2, zpow_add₀ (by norm_num)]; norm_num

theorem cast_lt_two_pow (mr : Nat) (hm : mr < 2 ^ 53) : (mr : ℚ) < (2 : ℚ) ^ (53 : Int) := by
  have h1 : ((mr : Nat) : ℚ) < ((2 ^ 53 : Nat) : ℚ) := Nat.cast_lt.2 hm
  have h2 : ((2 ^ 53 : Nat) : ℚ) = (2 : ℚ) ^ (53 : Int) := by norm_num
  rw [h2] at h1; exact h1

/-- A positive binary64 whose last place is finer than that of `a / b` is
below `2^floor(log2 (a / b))`. -/
theorem toRat_lt_of_finer (a b mr : Nat) (er : Int) (hm : mr < 2 ^ 53) (he1 : -1074 ≤ er)
    (hlt : er < ulpExp a b) :
    (mr : ℚ) * (2 : ℚ) ^ er < (2 : ℚ) ^ (floorLog2 a b)
      ∧ ulpExp a b = floorLog2 a b - 52 := by
  have he : ulpExp a b = floorLog2 a b - 52 := by unfold ulpExp at hlt ⊢; omega
  refine ⟨?_, he⟩
  have hmq : (mr : ℚ) < (2 : ℚ) ^ (53 : Int) := cast_lt_two_pow mr hm
  calc (mr : ℚ) * (2 : ℚ) ^ er < (2 : ℚ) ^ (53 : Int) * (2 : ℚ) ^ er :=
        mul_lt_mul_of_pos_right hmq (two_zpow_pos _)
    _ = (2 : ℚ) ^ (53 + er) := by rw [zpow_add₀ (by norm_num)]
    _ ≤ (2 : ℚ) ^ (floorLog2 a b) := zpow_le_zpow_right₀ (by norm_num) (by omega)

/-- A binary64 significand moved to a coarser-or-equal last place is a
natural number. -/
theorem shift_sig (mr : Nat) (er e : Int) (h : e ≤ er) :
    ((mr * 2 ^ (er - e).toNat : Nat) : ℚ) * (2 : ℚ) ^ e = (mr : ℚ) * (2 : ℚ) ^ er := by
  rw [Nat.cast_mul, cast_pow_toNat_of_nonneg (by omega : 0 ≤ er - e), mul_assoc,
    ← zpow_add₀ (by norm_num)]
  congr 2; ring

/-- Rounding is monotone from below: a binary64 `r` that is at most `a / b`
is at most the rounded quotient. -/
theorem roundRat_ge (a b : Nat) (ha : 0 < a) (hb : 0 < b) (nr : Bool) (mr : Nat) (er : Int)
    (hv : (fin nr mr er).valid) (h : toRat (fin nr mr er) ≤ (a : ℚ) / b) :
    roundRat false a b = inf false ∨
      (roundRat false a b = fin false (roundSig a b) (ulpExp a b) ∧
        toRat (fin nr mr er) ≤ toRat (fin false (roundSig a b) (ulpExp a b))) := by
  rw [roundRat_eq false a b ha]
  split_ifs with hov
  · exact Or.inl rfl
  · refine Or.inr ⟨rfl, ?_⟩
    obtain ⟨hm, he1, _⟩ := hv
    have hnonneg : (0 : ℚ) ≤ toRat (fin false (roundSig a b) (ulpExp a b)) := by
      rw [toRat_fin_pos]; exact mul_nonneg (Nat.cast_nonneg _) (two_zpow_pos _).le
    cases nr with
    | true =>
      refine le_trans ?_ hnonneg
      rw [toRat_fin_neg]
      exact neg_nonpos.2 (mul_nonneg (Nat.cast_nonneg _) (two_zpow_pos _).le)
    | false =>
      simp only [toRat_fin_pos] at h ⊢
      rcases le_or_lt (ulpExp a b) er with hge | hlt
      · have hj : mr * 2 ^ (er - ulpExp a b).toNat ≤ roundSig a b :=
          le_roundSig a b _ hb (by rw [shift_sig mr er _ hge]; exact h)
        have hjq : ((mr * 2 ^ (er - ulpExp a b).toNat : Nat) : ℚ) ≤ (roundSig a b : ℚ) := by
          exact_mod_cast hj
        rw [← shift_sig mr er _ hge]
        exact mul_le_mul_of_nonneg_right hjq (two_zpow_pos _).le
      · obtain ⟨h1, he⟩ := toRat_lt_of_finer a b mr er hm he1 hlt
        have h2 := pow_le_roundSig a b ha hb he
        have h2q : ((2 ^ 52 : Nat) : ℚ) ≤ (roundSig a b : ℚ) := by exact_mod_cast h2
        have h3 : (2 : ℚ) ^ (floorLog2 a b) = ((2 ^ 52 : Nat) : ℚ) * (2 : ℚ) ^ (ulpExp a b) := by
          have : floorLog2 a b = 52 + ulpExp a b := by omega
          rw [this, zpow_add₀ (by norm_num)]; norm_num
        calc (mr : ℚ) * (2 : ℚ) ^ er ≤ (2 : ℚ) ^ (floorLog2 a b) := h1.le
          _ = ((2 ^ 52 : Nat) : ℚ) * (2 : ℚ) ^ (ulpExp a b) := h3
          _ ≤ (roundSig a b : ℚ) * (2 : ℚ) ^ (ulpExp a b) :=
              mul_le_mul_of_nonneg_right h2q (two_zpow_pos _).le

/-- Rounding is monotone from above: a binary64 `r` that is at least `a / b`
is at least the rounded quotient, which is finite. -/
theorem roundRat_le (a b : Nat) (ha : 0 < a) (hb : 0 < b) (nr : Bool) (mr : Nat) (er : Int)
    (hv : (fin nr mr er).valid) (h : (a : ℚ) / b ≤ toRat (fin nr mr er)) :
    roundRat false a b = fin false (roundSig a b) (ulpExp a b) ∧
      toRat (fin false (roundSig a b) (ulpExp a b)) ≤ toRat (fin nr mr er) := by
  obtain ⟨hm, he1, he2⟩ := hv
  have hx : (0 : ℚ) < (a : ℚ) / b := div_pos (by exact_mod_cast ha) (by exact_mod_cast hb)
  cases nr with
  | true =>
    exfalso
    rw [toRat_fin_neg] at h
    have : (0 : ℚ) ≤ (mr : ℚ) * (2 : ℚ) ^ er := mul_nonneg (Nat.cast_nonneg _) (two_zpow_pos _).le
    linarith
  | false =>
    simp only [toRat_fin_pos] at h ⊢
    rcases le_or_lt (ulpExp a b) er with hge | hlt
    · have hj : roundSig a b ≤ mr * 2 ^ (er - ulpExp a b).toNat :=
        roundSig_le a b _ hb (by rw [shift_sig mr er _ hge]; exact h)
      have hjq : (roundSig a b : ℚ) ≤ ((mr * 2 ^ (er - ulpExp a b).toNat : Nat) : ℚ) := by
        exact_mod_cast hj
      have hval : (roundSig a b : ℚ) * (2 : ℚ) ^ (ulpExp a b) ≤ (mr : ℚ) * (2 : ℚ) ^ er := by
        rw [← shift_sig mr er _ hge]
        exact mul_le_mul_of_nonneg_right hjq (two_zpow_pos _).le
      refine ⟨?_, hval⟩
      rw [roundRat_eq false a b ha, if_neg]
      intro hov
      unfold overflows at hov
      rw [decide_eq_true_iff] at hov
      have hmq : (mr : ℚ) < (2 : ℚ) ^ (53 : Int) := cast_lt_two_pow mr hm
      have hlt : (mr : ℚ) * (2 : ℚ) ^ er < (2 : ℚ) ^ (1024 : Int) := by
        calc (mr : ℚ) * (2 : ℚ) ^ er < (2 : ℚ) ^ (53 : Int) * (2 : ℚ) ^ er :=
              mul_lt_mul_of_pos_right hmq (two_zpow_pos _)
          _ = (2 : ℚ) ^ (53 + er) := by rw [zpow_add₀ (by norm_num)]
          _ ≤ (2 : ℚ) ^ (1024 : Int) := zpow_le_zpow_right₀ (by norm_num) (by omega)
      -- an overflowing result is at least 2^1024
      have hbig : (2 : ℚ) ^ (1024 : Int) ≤ (roundSig a b : ℚ) * (2 : ℚ) ^ (ulpExp a b) := by
        rcases hov with hov | ⟨hov1, hov2⟩
        · have he : ulpExp a b = floorLog2 a b - 52 := by
            have : ulpExp a b = max (floorLog2 a b - 52) (-1074) := rfl
            omega
          have h52 : ((2 ^ 52 : Nat) : ℚ) ≤ (roundSig a b : ℚ) := by
            exact_mod_cast pow_le_roundSig a b ha hb he
          have h52q : ((2 ^ 52 : Nat) : ℚ) = (2 : ℚ) ^ (52 : Int) := by norm_num
          rw [h52q] at h52
          calc (2 : ℚ) ^ (1024 : Int) = (2 : ℚ) ^ (52 : Int) * (2 : ℚ) ^ (972 : Int) := by
                rw [← zpow_add₀ (by norm_num)]; norm_num
            _ ≤ (2 : ℚ) ^ (52 : Int) * (2 : ℚ) ^ (ulpExp a b) :=
                mul_le_mul_of_nonneg_left (zpow_le_zpow_right₀ (by norm_num) (by omega))
                  (two_zpow_pos _).le
            _ ≤ (roundSig a b : ℚ) * (2 : ℚ) ^ (ulpExp a b) :=
                mul_le_mul_of_nonneg_right h52 (two_zpow_pos _).le
        · have h53 : ((2 ^ 53 : Nat) : ℚ) ≤ (roundSig a b : ℚ) := by exact_mod_cast hov2
          have h53q : ((2 ^ 53 : Nat) : ℚ) = (2 : ℚ) ^ (53 : Int) := by norm_num
          rw [h53q] at h53
          calc (2 : ℚ) ^ (1024 : Int) = (2 : ℚ) ^ (53 : Int) * (2 : ℚ) ^ (971 : Int) := by
                rw [← zpow_add₀ (by norm_num)]; norm_num
            _ = (2 : ℚ) ^ (53 : Int) * (2 : ℚ) ^ (ulpExp a b) := by rw [hov1]
            _ ≤ (roundSig a b : ℚ) * (2 : ℚ) ^ (ulpExp a b) :=
                mul_le_mul_of_nonneg_right h53 (two_zpow_pos _).le
      linarith
    · exfalso
      obtain ⟨h1, _⟩ := toRat_lt_of_finer a b mr er hm he1 hlt
      have h2 := (floorLog2_spec a b ha hb).1
      linarith

/-! ## Comparison, conversion and division -/

theorem scaled_cast (s : Bool) (m : Nat) (e k : Int) (h : k ≤ e) :
    ((scaled s m e k : Int) : ℚ) * (2 : ℚ) ^ k = toRat (fin s m e) := by
  unfold scaled toRat
  rw [Int.cast_mul, Int.cast_natCast, mul_assoc, shift_sig m e k h]
  cases s <;> simp

theorem lt_fin_iff (s : Bool) (m : Nat) (e : Int) (t : Bool) (n : Nat) (f : Int) :
    lt (fin s m e) (fin t n f) = true ↔ toRat (fin s m e) < toRat (fin t n f) := by
  unfold lt
  rw [decide_eq_true_iff, ← scaled_cast s m e (min e f) (min_le_left _ _),
    ← scaled_cast t n f (min e f) (min_le_right _ _),
    mul_lt_mul_right (two_zpow_pos _), Int.cast_lt]

/-- On integers of at most 53 bits `float64(x)` is exact. -/
theorem ofInt_exact (n : Nat) (h1 : 0 < n) (h2 : n ≤ 2 ^ 53) :
    ∃ m e, ofInt (n : Int) = fin false m e ∧ (m : ℚ) * (2 : ℚ) ^ e = (n : ℚ) ∧ 0 < m := by
  have hof : ofInt (n : Int) = roundRat false n 1 := by
    unfold ofInt
    rw [Int.natAbs_ofNat, decide_eq_false (by omega)]
  have hx : ((n : Nat) : ℚ) / ((1 : Nat) : ℚ) = (n : ℚ) := by simp
  -- a binary64 that stands for `n`
  obtain ⟨mr, er, hv, hr⟩ : ∃ mr er, (fin false mr er).valid ∧
      toRat (fin false mr er) = (n : ℚ) := by
    rcases Nat.lt_or_ge n (2 ^ 53) with hlt | hge
    · exact ⟨n, 0, ⟨hlt, by omega, by omega⟩, by simp [toRat]⟩
    · have : n = 2 ^ 53 := le_antisymm h2 hge
      subst this
      exact ⟨2 ^ 52, 1, ⟨by norm_num, by omega, by omega⟩, by simp [toRat]; norm_num⟩
  obtain ⟨heq, hle⟩ := roundRat_le n 1 h1 (by omega) false mr er hv (by rw [hx, hr])
  have hge := roundRat_ge n 1 h1 (by omega) false mr er hv (by rw [hx, hr])
  rw [heq] at hge
  rcases hge with hinf | ⟨_, hge⟩
  · exact absurd hinf (by simp)
  · have hval : toRat (fin false (roundSig n 1) (ulpExp n 1)) = (n : ℚ) := by
      rw [← hr]; exact le_antisymm hle hge
    rw [toRat_fin_pos] at hval
    refine ⟨roundSig n 1, ulpExp n 1, by rw [hof, heq], hval, ?_⟩
    rcases Nat.eq_zero_or_pos (roundSig n 1) with h0 | hpos
    · exfalso
      rw [h0] at hval
      have : (0 : ℚ) < (n : ℚ) := by exact_mod_cast h1
      simp at hval
      linarith
    · exact hpos

theorem div_fin_fin (m1 : Nat) (e1 : Int) (m2 : Nat) (e2 : Int) (h : 0 < m2) :
    div (fin false m1 e1) (fin false m2 e2)
      = roundRat false (m1 * 2 ^ (e1 - e2).toNat) (m2 * 2 ^ (e2 - e1).toNat) := by
  simp only [div]
  rw [if_neg (by omega)]
  rfl

theorem cast_div_scale (m1 : Nat) (e1 : Int) (m2 : Nat) (e2 : Int) (h : 0 < m2) :
    ((m1 * 2 ^ (e1 - e2).toNat : Nat) : ℚ) / ((m2 * 2 ^ (e2 - e1).toNat : Nat) : ℚ)
      = ((m1 : ℚ) * (2 : ℚ) ^ e1) / ((m2 : ℚ) * (2 : ℚ) ^ e2) := by
  have h1 : e1 - e2 = -(e2 - e1) := by ring
  have hm : (m2 : ℚ) ≠ 0 := by exact_mod_cast (by omega : m2 ≠ 0)
  have hp1 : (2 : ℚ) ^ e1 ≠ 0 := (two_zpow_pos _).ne'
  have hp2 : (2 : ℚ) ^ e2 ≠ 0 := (two_zpow_pos _).ne'
  rw [h1, cast_scale, neg_sub, zpow_sub₀ (by norm_num : (2 : ℚ) ≠ 0)]
  field_simp

/-- The mask ratio `float64(maskCount) / float64(length)` is the rounded
quotient of two positive naturals whose exact quotient is `maskCount / length`. -/
theorem maskRatio_eq (mc n : Nat) (h1 : 0 < mc) (h2 : mc ≤ 2 ^ 53) (h3 : 0 < n)
    (h4 : n ≤ 2 ^ 53) :
    ∃ a b : Nat, 0 < a ∧ 0 < b ∧ (a : ℚ) / (b : ℚ) = (mc : ℚ) / (n : ℚ) ∧
      div (ofInt (mc : Int)) (ofInt (n : Int)) = roundRat false a b := by
  obtain ⟨m1, e1, hof1, hv1, hm1⟩ := ofInt_exact mc h1 h2
  obtain ⟨m2, e2, hof2, hv2, hm2⟩ := ofInt_exact n h3 h4
  refine ⟨m1 * 2 ^ (e1 - e2).toNat, m2 * 2 ^ (e2 - e1).toNat,
    Nat.mul_pos hm1 (pow_pos (by norm_num) _), Nat.mul_pos hm2 (pow_pos (by norm_num) _), ?_, ?_⟩
  · rw [cast_div_scale m1 e1 m2 e2 hm2, hv1, hv2]
  · rw [hof1, hof2, div_fin_fin m1 e1 m2 e2 hm2]

/-- Rule 3 does not fire when the exact ratio is at least `minMaskRatio`. -/
theorem maskRatio_not_lt (mc n : Nat) (h1 : 0 < mc) (h2 : mc ≤ 2 ^ 53) (h3 : 0 < n)
    (h4 : n ≤ 2 ^ 53) (r : Float64) (hv : r.valid) (hr : r.leRat ((mc : ℚ) / (n : ℚ))) :
    lt (div (ofInt (mc : Int)) (ofInt (n : Int))) r = false := by
  obtain ⟨a, b, ha, hb, hab, hdiv⟩ := maskRatio_eq mc n h1 h2 h3 h4
  rw [hdiv]
  cases r with
  | nan => exact absurd hr (by simp [leRat])
  | inf neg =>
    have hneg : neg = true := hr
    subst hneg
    rw [roundRat_eq false a b ha]
    split_ifs <;> rfl
  | fin nr mr er =>
    have hr2 : toRat (fin nr mr er) ≤ (a : ℚ) / b := by rw [hab]; exact hr
    rcases roundRat_ge a b ha hb nr mr er hv hr2 with hinf | ⟨heq, hle⟩
    · rw [hinf]; rfl
    · rw [heq]
      rw [Bool.eq_false_iff]
      intro hlt
      rw [lt_fin_iff] at hlt
      exact absurd hlt (not_lt.2 hle)

/-- Rule 3 fires against a `minMaskRatio` of 1 as soon as one code point is
left visible. -/
theorem maskRatio_lt_one (mc n : Nat) (h1 : 0 < mc) (h3 : mc < n) (h4 : n ≤ 2 ^ 53)
    (r : Float64) (hr : r.eqRat 1) :
    lt (div (ofInt (mc : Int)) (ofInt (n : Int))) r = true := by
  obtain ⟨a, b, ha, hb, hab, hdiv⟩ := maskRatio_eq mc n h1 (by omega) (by omega) h4
  rw [hdiv]
  cases r with
  | nan => exact absurd hr (by simp [eqRat])
  | inf neg => exact absurd hr (by simp [eqRat])
  | fin nr mr er =>
    have hr1 : toRat (fin nr mr er) = 1 := hr
    -- the largest binary64 below 1
    have hpv : (fin false (2 ^ 53 - 1) (-53)).valid := ⟨by norm_num, by omega, by omega⟩
    have hpval : toRat (fin false (2 ^ 53 - 1) (-53)) = 1 - 1 / (2 : ℚ) ^ 53 := by
      rw [toRat_fin_pos]; norm_num
    have hnq : (0 : ℚ) < (n : ℚ) := by exact_mod_cast (by omega : 0 < n)
    have hmcq : (mc : ℚ) + 1 ≤ (n : ℚ) := by exact_mod_cast h3
    have hn53 : (n : ℚ) ≤ (2 : ℚ) ^ 53 := by exact_mod_cast h4
    have hx : (a : ℚ) / b ≤ toRat (fin false (2 ^ 53 - 1) (-53)) := by
      rw [hab, hpval, div_le_iff₀ hnq]
      have h5 : (1 : ℚ) / (2 : ℚ) ^ 53 * (n : ℚ) ≤ 1 := by
        rw [div_mul_eq_mul_div, one_mul, div_le_one (by positivity)]; exact hn53
      nlinarith
    obtain ⟨heq, hle⟩ := roundRat_le a b ha hb false _ _ hpv hx
    rw [heq, lt_fin_iff, hr1]
    refine lt_of_le_of_lt hle ?_
    rw [hpval]
    have : (0 : ℚ) < 1 / (2 : ℚ) ^ 53 := by positivity
    linarith

theorem ite_unsigned (c : Bool) (m : Nat) (e : Int) :
    unsignedOrNan (if c then inf false else fin false m e) := by
  cases c <;> exact rfl

theorem roundRat_unsigned (a b : Nat) : unsignedOrNan (roundRat false a b) := by
  rcases Nat.eq_zero_or_pos a with h | h
  · have h0 : roundRat false a b = fin false 0 0 := by
      unfold roundRat; rw [if_pos h]
    rw [h0]; exact rfl
  · rw [roundRat_eq false a b h]
    exact ite_unsigned _ _ _

theorem ofInt_unsigned (x : Int) (h : 0 ≤ x) : unsignedOrNan (ofInt x) := by
  unfold ofInt
  rw [decide_eq_false (by omega)]
  exact roundRat_unsigned _ _

theorem div_unsigned (x y : Float64) (hx : unsignedOrNan x) (hy : unsignedOrNan y) :
    unsignedOrNan (div x y) := by
  cases x with
  | nan => simp [div, unsignedOrNan]
  | inf s =>
    cases y with
    | nan => simp [div, unsignedOrNan]
    | inf t => simp [div, unsignedOrNan]
    | fin t n f =>
      have hs : s = false := hx
      have ht : t = false := hy
      subst hs ht
      simp [div, unsignedOrNan]
  | fin s m e =>
    cases y with
    | nan => simp [div, unsignedOrNan]
    | inf t =>
      have hs : s = false := hx
      have ht : t = false := hy
      subst hs ht
      simp [div, unsignedOrNan]
    | fin t n f =>
      have hs : s = false := hx
      have ht : t = false := hy
      subst hs ht
      simp only [div]
      split_ifs
      · exact trivial
      · exact rfl
      · exact roundRat_unsigned _ _

/-- Nothing unsigned is below zero. -/
theorem lt_zero_of_unsigned (x : Float64) (hx : unsignedOrNan x) (r : Float64)
    (hr : r.eqRat 0) : lt x r = false := by
  cases r with
  | nan => exact absurd hr (by simp [eqRat])
  | inf neg => exact absurd hr (by simp [eqRat])
  | fin nr mr er =>
    have hr0 : toRat (fin nr mr er) = 0 := hr
    cases x with
    | nan => rfl
    | inf s =>
      have hs : s = false := hx
      subst hs; rfl
    | fin s m e =>
      have hs : s = false := hx
      subst hs
      rw [Bool.eq_false_iff]
      intro hlt
      rw [lt_fin_iff, hr0, toRat_fin_pos] at hlt
      have : (0 : ℚ) ≤ (m : ℚ) * (2 : ℚ) ^ e := mul_nonneg (Nat.cast_nonneg _) (two_zpow_pos _).le
      linarith

/-- Rule 3 does not fire against a `minMaskRatio` of 0. -/
theorem maskRatio_not_lt_zero (mc n : Int) (h1 : 0 ≤ mc) (h3 : 0 ≤ n) (r : Float64)
    (hr : r.eqRat 0) : lt (div (ofInt mc) (ofInt n)) r = false :=
  lt_zero_of_unsigned _ (div_unsigned _ _ (ofInt_unsigned mc h1) (ofInt_unsigned n h3)) r hr

end Float64

/-! ## Machine integers, slices and the mask loop -/

theorem wrapInt64_of_range (x : Int) (h1 : -2 ^ 63 ≤ x) (h2 : x < 2 ^ 63) : wrapInt64 x = x := by
  unfold wrapInt64; omega

theorem set_length_append (pre : List Int) (x c : Int) (post : List Int) :
    (pre ++ x :: post).set pre.length c = pre ++ c :: post := by
  induction pre with
  | nil => rfl
  | cons a pre ih => simp [ih]

/-- The mask loop overwrites the `todo` cells that follow the first
`prefixLength + i` ones, provided they exist. -/
theorem maskLoop_ok (c p : Int) (todo : Nat) : ∀ (i : Nat) (pre mid post : List Int),
    0 ≤ p → p + (i : Int) = (pre.length : Int) → mid.length = todo →
    pre.length + todo < 2 ^ 63 →
    maskLoop c p todo (i : Int) (pre ++ mid ++ post)
      = .ok (pre ++ List.replicate todo c ++ post) := by
  induction todo with
  | zero =>
    intro i pre mid post _ _ hmid _
    have : mid = [] := List.length_eq_zero.1 hmid
    subst this
    simp [maskLoop]
  | succ todo ih =>
    intro i pre mid post hp hi hmid hlen
    cases mid with
    | nil => simp at hmid
    | cons x mid =>
      have hidx : addInt p (i : Int) = (pre.length : Int) := by
        unfold addInt; rw [hi]; exact wrapInt64_of_range _ (by omega) (by omega)
      simp only [maskLoop, hidx]
      rw [if_pos (by simp; omega)]
      have hset : (pre ++ x :: mid ++ post).set ((pre.length : Int)).toNat c
          = (pre ++ [c]) ++ mid ++ post := by
        rw [Int.toNat_ofNat, List.append_assoc, List.cons_append, set_length_append]
        simp
      rw [hset]
      have := ih (i + 1) (pre ++ [c]) mid post hp (by simp; omega) (by simpa using hmid)
        (by simp; omega)
      rw [Nat.cast_add, Nat.cast_one] at this
      rw [this]
      simp [List.replicate_succ]

theorem copySuffix_ok (front tail src : List Int)
    (h : src.length = front.length + tail.length) :
    copySuffix (front ++ tail) src (front.length : Int)
      = .ok (front ++ src.drop front.length) := by
  have h1 : (front ++ tail).length - front.length = tail.length := by
    rw [List.length_append]; omega
  have h2 : src.length - front.length = tail.length := by omega
  have h3 : (front ++ tail).drop (front.length + tail.length) = [] :=
    List.drop_of_length_le (by rw [List.length_append])
  have h4 : (src.drop front.length).take tail.length = src.drop front.length :=
    List.take_of_length_le (by rw [List.length_drop]; omega)
  unfold copySuffix
  rw [if_pos (by rw [List.length_append]; omega), if_pos (by omega), Int.toNat_ofNat, h1, h2,
    Nat.min_self, List.take_left, h3, h4, List.append_nil]

/-! ## The four rules of `maskString` -/

theorem maskString_rule1 (c p q : Int) (r : Float64) : maskString [] c p q r = .ok [] := by
  simp [maskString, RuneCountInString, runeCountAux]

theorem maskString_rule2 (s : List Nat) (c p q : Int) (r : Float64)
    (hn : 1 ≤ RuneCountInString s) (h : (RuneCountInString s : Int) ≤ addInt p q) :
    maskString s c p q r = .ok (stringsRepeat (runeToString c) (RuneCountInString s)) := by
  unfold maskString
  dsimp only
  rw [if_neg (by omega), if_pos h, Int.toNat_ofNat]

theorem maskString_rule3 (s : List Nat) (c p q : Int) (r : Float64)
    (hn : 1 ≤ RuneCountInString s) (h : addInt p q < (RuneCountInString s : Int))
    (hr : Float64.lt (Float64.div
      (Float64.ofInt (subInt (subInt (RuneCountInString s : Int) p) q))
      (Float64.ofInt (RuneCountInString s : Int))) r = true) :
    maskString s c p q r = .ok (stringsRepeat (runeToString c) (RuneCountInString s)) := by
  unfold maskString
  dsimp only
  rw [if_neg (by omega), if_neg (by omega), if_pos hr, Int.toNat_ofNat]

theorem maskString_rule4 (s : List Nat) (c p q : Int) (r : Float64)
    (hp : 0 ≤ p) (hq : 0 ≤ q) (hpq : p + q < (RuneCountInString s : Int))
    (hn : RuneCountInString s < 2 ^ 63)
    (hr : Float64.lt (Float64.div
      (Float64.ofInt ((RuneCountInString s : Int) - p - q))
      (Float64.ofInt (RuneCountInString s : Int))) r = false) :
    maskString s c p q r
      = .ok (runesToString (partialMask (stringToRunes s) c p.toNat q.toNat)) := by
  obtain ⟨p, rfl⟩ : ∃ k : Nat, p = (k : Int) := ⟨p.toNat, by omega⟩
  obtain ⟨q, rfl⟩ : ∃ k : Nat, q = (k : Int) := ⟨q.toNat, by omega⟩
  have hlen : (stringToRunes s).length = RuneCountInString s := (runeCount_eq_length s).symm
  generalize hN : RuneCountInString s = n at *
  have hadd : addInt (p : Int) (q : Int) = (p : Int) + q := by
    unfold addInt; exact wrapInt64_of_range _ (by omega) (by omega)
  have hsub1 : subInt (n : Int) (p : Int) = (n : Int) - p := by
    unfold subInt; exact wrapInt64_of_range _ (by omega) (by omega)
  have hsub2 : subInt ((n : Int) - p) (q : Int) = (n : Int) - p - q := by
    unfold subInt; exact wrapInt64_of_range _ (by omega) (by omega)
  have hsub3 : subInt (n : Int) (q : Int) = (n : Int) - q := by
    unfold subInt; exact wrapInt64_of_range _ (by omega) (by omega)
  have hmc : ((n : Int) - p - q).toNat = n - p - q := by omega
  have hlo : ((n : Int) - q).toNat = n - q := by omega
  unfold maskString
  dsimp only
  rw [hN, if_neg (by omega), hadd, if_neg (by omega), hsub1, hsub2, hr, hsub3]
  simp only [Bool.false_eq_true, if_false, Int.toNat_ofNat, hmc]
  -- the prefix copy
  have hcp : copyPrefix (List.replicate n 0) (stringToRunes s) (p : Int)
      = .ok ((stringToRunes s).take p ++ (List.replicate (n - p - q) 0 ++ List.replicate q 0)) := by
    unfold copyPrefix
    rw [if_pos (by simp; omega), if_pos (by rw [hlen]; omega), Int.toNat_ofNat,
      List.drop_replicate, List.append_replicate_replicate]
    have : n - p - q + q = n - p := by omega
    rw [this]
  rw [hcp]
  dsimp only
  -- the mask loop
  have hloop := maskLoop_ok c (p : Int) (n - p - q) 0 ((stringToRunes s).take p)
    (List.replicate (n - p - q) 0) (List.replicate q 0) (by omega)
    (by rw [List.length_take, hlen]; omega) (by simp)
    (by rw [List.length_take, hlen]; omega)
  rw [Nat.cast_zero, List.append_assoc] at hloop
  rw [hloop]
  dsimp only
  -- the suffix copy
  have h1 : ((stringToRunes s).take p ++ List.replicate (n - p - q) c).length = n - q := by
    rw [List.length_append, List.length_take, List.length_replicate, hlen]; omega
  have hcs := copySuffix_ok ((stringToRunes s).take p ++ List.replicate (n - p - q) c)
    (List.replicate q 0) (stringToRunes s) (by rw [h1, hlen, List.length_replicate]; omega)
  have hcast : ((n - q : Nat) : Int) = (n : Int) - q := by omega
  rw [h1, hcast] at hcs
  rw [hcs]
  unfold partialMask
  rw [hlen]

/-! ## Lengths along the partial-mask path -/

theorem runeCount_runesToString (rs : List Int) :
    RuneCountInString (runesToString rs) = rs.length := by
  rw [runeCount_eq_length, stringToRunes_runesToString, List.length_map]

theorem runeCount_stringsRepeat (c : Int) (n : Nat) :
    RuneCountInString (stringsRepeat (runeToString c) n) = n := by
  rw [runeCount_eq_length, stringToRunes_stringsRepeat, List.length_replicate]

theorem copyPrefix_length (dst src : List Int) (hi : Int) (out : List Int)
    (h : copyPrefix dst src hi = .ok out) : out.length = dst.length := by
  unfold copyPrefix at h
  split_ifs at h with h1 h2
  · cases h
    rw [List.length_append, List.length_take, List.length_drop]
    omega

theorem copySuffix_length (dst src : List Int) (lo : Int) (out : List Int)
    (h : copySuffix dst src lo = .ok out) : out.length = dst.length := by
  unfold copySuffix at h
  split_ifs at h with h1 h2
  · cases h
    simp only [List.length_append, List.length_take, List.length_drop]
    omega

theorem maskLoop_length (c p : Int) (todo : Nat) : ∀ (i : Int) (result out : List Int),
    maskLoop c p todo i result = .ok out → out.length = result.length := by
  induction todo with
  | zero =>
    intro i result out h
    simp only [maskLoop] at h
    cases h; rfl
  | succ todo ih =>
    intro i result out h
    simp only [maskLoop] at h
    split_ifs at h with h1
    · rw [ih _ _ _ h, List.length_set]

/-- Every string `maskString` returns has as many runes as its input. -/
theorem maskString_runeCount (s : List Nat) (c p q : Int) (r : Float64) (out : List Nat)
    (h : maskString s c p q r = .ok out) : RuneCountInString out = RuneCountInString s := by
  unfold maskString at h
  dsimp only at h
  split_ifs at h with h1 h2 h3
  · cases h; rfl
  · cases h; rw [Int.toNat_ofNat, runeCount_stringsRepeat]
  · cases h; rw [Int.toNat_ofNat, runeCount_stringsRepeat]
  · cases hcp : copyPrefix (List.replicate (RuneCountInString s : Int).toNat 0)
        (stringToRunes s) p with
    | error e => rw [hcp] at h; cases h
    | ok res1 =>
      rw [hcp] at h
      dsimp only at h
      cases hl : maskLoop c p (subInt (subInt (RuneCountInString s : Int) p) q).toNat 0 res1 with
      | error e => rw [hl] at h; cases h
      | ok res2 =>
        rw [hl] at h
        dsimp only at h
        cases hs : copySuffix res2 (stringToRunes s) (subInt (RuneCountInString s : Int) q) with
        | error e => rw [hs] at h; cases h
        | ok res3 =>
          rw [hs] at h
          cases h
          rw [runeCount_runesToString, copySuffix_length _ _ _ _ hs, maskLoop_length _ _ _ _ _ _ hl,
            copyPrefix_length _ _ _ _ hcp, List.length_replicate, Int.toNat_ofNat]

/-- With non-negative lengths whose sum fits an `int`, `maskString` returns. -/
theorem maskString_returns (s : List Nat) (c p q : Int) (r : Float64)
    (hp : 0 ≤ p) (hq : 0 ≤ q) (hfit : p + q < 2 ^ 63) (hn : RuneCountInString s < 2 ^ 63) :
    ∃ out, maskString s c p q r = .ok out := by
  have hadd : addInt p q = p + q := by
    unfold addInt; exact wrapInt64_of_range _ (by omega) (by omega)
  rcases Nat.eq_zero_or_pos (RuneCountInString s) with h0 | hpos
  · have := runeCount_eq_zero h0
    subst this
    exact ⟨_, maskString_rule1 c p q r⟩
  rcases le_or_lt (RuneCountInString s : Int) (p + q) with h2 | h2
  · exact ⟨_, maskString_rule2 s c p q r hpos (by rw [hadd]; exact h2)⟩
  have hsub : subInt (subInt (RuneCountInString s : Int) p) q
      = (RuneCountInString s : Int) - p - q := by
    unfold subInt
    rw [wrapInt64_of_range ((RuneCountInString s : Int) - p) (by omega) (by omega)]
    exact wrapInt64_of_range _ (by omega) (by omega)
  cases hr : Float64.lt (Float64.div (Float64.ofInt ((RuneCountInString s : Int) - p - q))
      (Float64.ofInt (RuneCountInString s : Int))) r with
  | true => exact ⟨_, maskString_rule3 s c p q r hpos (by rw [hadd]; exact h2) (by rw [hsub]; exact hr)⟩
  | false => exact ⟨_, maskString_rule4 s c p q r hp hq h2 hn hr⟩

theorem partialMask_valid (runes : List Int) (c : Int) (p q : Nat)
    (hr : ∀ x ∈ runes, validRune x) (hc : validRune c) :
    ∀ x ∈ partialMask runes c p q, validRune x := by
  intro x hx
  unfold partialMask at hx
  rw [List.mem_append, List.mem_append] at hx
  rcases hx with (h | h) | h
  · exact hr x (List.mem_of_mem_take h)
  · rw [(List.mem_replicate.1 h).2]; exact hc
  · exact hr x (List.mem_of_mem_drop h)

/-- The partial mask is what the decoded output of rule 4 reads. -/
theorem stringToRunes_partialMask (s : List Nat) (c : Int) (p q : Nat) (hc : validRune c) :
    stringToRunes (runesToString (partialMask (stringToRunes s) c p q))
      = partialMask (stringToRunes s) c p q :=
  stringToRunes_runesToString_valid _
    (partialMask_valid _ c p q (stringToRunes_valid s) hc)

/-! ## The package's tests (`TestMasker_Mask`), replayed on the model -/

theorem test_basic :
    (New 42 2 2 (Float64.ofConst 3 10)).Mask [49, 50, 51, 52, 53, 54, 55, 56, 57, 48] = .ok [49,
      50, 42, 42, 42, 42, 42, 42, 57, 48] := by
  decide

theorem test_japanese :
    (New 42 2 2 (Float64.ofConst 3 10)).Mask [227, 129, 147, 227, 130, 147, 227, 129, 171, 227,
      129, 161, 227, 129, 175, 228, 184, 150, 231, 149, 140, 227, 129, 167, 227, 129, 153] = .ok
      [227, 129, 147, 227, 130, 147, 42, 42, 42, 42, 42, 227, 129, 167, 227, 129, 153] := by
  decide

theorem test_short_string :
    (New 42 2 2 (Float64.ofConst 3 10)).Mask [97, 98, 99] = .ok [42, 42, 42] := by
  decide

theorem test_empty_string :
    (New 42 2 2 (Float64.ofConst 3 10)).Mask [] = .ok [] := by
  decide

theorem test_below_minimum_ratio :
    (New 42 4 4 (Float64.ofConst 1 2)).Mask [49, 50, 51, 52, 53, 54, 55, 56, 57, 48] = .ok [42,
      42, 42, 42, 42, 42, 42, 42, 42, 42] := by
  decide

theorem test_custom_mask_character :
    (New 9632 1 1 (Float64.ofConst 3 10)).Mask [97, 98, 99, 100, 101, 102] = .ok [97, 226, 150,
      160, 226, 150, 160, 226, 150, 160, 226, 150, 160, 102] := by
  decide

theorem test_keep_prefix_only :
    (New 42 3 0 (Float64.ofConst 3 10)).Mask [49, 50, 51, 52, 53, 54, 55, 56, 57, 48] = .ok [49,
      50, 51, 42, 42, 42, 42, 42, 42, 42] := by
  decide

theorem test_keep_suffix_only :
    (New 42 0 3 (Float64.ofConst 3 10)).Mask [49, 50, 51, 52, 53, 54, 55, 56, 57, 48] = .ok [42,
      42, 42, 42, 42, 42, 42, 56, 57, 48] := by
  decide

theorem test_emoji :
    (New 42 2 2 (Float64.ofConst 3 10)).Mask [240, 159, 152, 128, 240, 159, 152, 129, 240, 159,
      152, 130, 240, 159, 152, 131, 240, 159, 152, 132, 240, 159, 152, 133, 240, 159, 152, 134,
      240, 159, 152, 135] = .ok [240, 159, 152, 128, 240, 159, 152, 129, 42, 42, 42, 42, 240,
      159, 152, 134, 240, 159, 152, 135] := by
  decide

theorem test_mixed :
    (New 88 3 3 (Float64.ofConst 1 5)).Mask [97, 98, 99, 49, 50, 51, 227, 129, 130, 227, 129,
      132, 227, 129, 134] = .ok [97, 98, 99, 88, 88, 88, 227, 129, 130, 227, 129, 132, 227, 129,
      134] := by
  decide

/-! ## The package's tests (`TestMask`), replayed on the model -/

theorem test_mask_default_settings :
    Mask [49, 50, 51, 52, 53, 54, 55, 56, 57, 48] 2 2 = .ok [49, 50, 42, 42, 42, 42, 42, 42, 57,
      48] := by
  decide

theorem test_mask_japanese :
    Mask [227, 131, 161, 227, 131, 188, 227, 131, 171, 227, 130, 162, 227, 131, 137, 227, 131,
      172, 227, 130, 185] 2 2 = .ok [227, 131, 161, 227, 131, 188, 42, 42, 42, 227, 131, 172,
      227, 130, 185] := by
  decide

/-! ## The claims -/

/-- C1 (partial mask). For an input of `n ≥ 1` code points and a configuration
with `prefixVisible = p ≥ 0`, `suffixVisible = q ≥ 0`, `p + q < n` and
`(n - p - q) / n ≥ minMaskRatio` (exact division), `Masker.Mask` returns the
string made of the first `p` code points of the input, `n - p - q` copies of
the mask symbol and the last `q` code points of the input, and that string
decodes to exactly this sequence of code points. -/
theorem C1_partial_mask (s : List Nat) (c p q : Int) (r : Float64)
    (hc : validRune c) (hv : r.valid)
    (hn1 : 1 ≤ RuneCountInString s) (hn2 : RuneCountInString s ≤ 2 ^ 53)
    (hp : 0 ≤ p) (hq : 0 ≤ q) (hpq : p + q < (RuneCountInString s : Int))
    (hratio : r.leRat ((((RuneCountInString s : Int) - p - q : Int) : ℚ)
      / ((RuneCountInString s : Nat) : ℚ))) :
    (New c p q r).Mask s
        = .ok (runesToString ((stringToRunes s).take p.toNat
            ++ List.replicate ((stringToRunes s).length - p.toNat - q.toNat) c
            ++ (stringToRunes s).drop ((stringToRunes s).length - q.toNat)))
      ∧ stringToRunes (runesToString ((stringToRunes s).take p.toNat
            ++ List.replicate ((stringToRunes s).length - p.toNat - q.toNat) c
            ++ (stringToRunes s).drop ((stringToRunes s).length - q.toNat)))
        = (stringToRunes s).take p.toNat
            ++ List.replicate ((stringToRunes s).length - p.toNat - q.toNat) c
            ++ (stringToRunes s).drop ((stringToRunes s).length - q.toNat) := by
  refine ⟨?_, stringToRunes_partialMask s c p.toNat q.toNat hc⟩
  have hmc : (RuneCountInString s : Int) - p - q
      = ((RuneCountInString s - p.toNat - q.toNat : Nat) : Int) := by omega
  refine maskString_rule4 s c p q r hp hq hpq (by omega) ?_
  rw [hmc]
  refine Float64.maskRatio_not_lt _ _ (by omega) (by omega) (by omega) hn2 r hv ?_
  rw [hmc] at hratio
  rw [Int.cast_natCast] at hratio
  exact hratio


theorem ofConst_3_10 : Float64.ofConst 3 10 = .fin false 5404319552844595 (-54) := by decide

theorem C1_partial_mask_witness :
    (New 42 2 2 (Float64.ofConst 3 10)).Mask [49, 50, 51, 52, 53, 54, 55, 56, 57, 48]
      = .ok [49, 50, 42, 42, 42, 42, 42, 42, 57, 48] := by
  have hcount : RuneCountInString [49, 50, 51, 52, 53, 54, 55, 56, 57, 48] = 10 := by decide
  have h := (C1_partial_mask [49, 50, 51, 52, 53, 54, 55, 56, 57, 48] 42 2 2
    (Float64.ofConst 3 10) (by decide) (by decide) (by decide) (by decide) (by decide)
    (by decide) (by decide)
    (by rw [hcount, ofConst_3_10]; norm_num [Float64.leRat, Float64.toRat])).1
  rw [h]; decide

theorem stringToRunes_stringsRepeat_valid (c : Int) (n : Nat) (hc : validRune c) :
    stringToRunes (stringsRepeat (runeToString c) n) = List.replicate n c := by
  rw [stringToRunes_stringsRepeat, normRune_of_valid hc]

/-- Rule 2, on the sum the guard computes: when the Go `int` sum
`prefixLength + suffixLength` is at least the rune count `n ≥ 1`, `Mask`
returns `n` copies of the mask rune, whatever `minMaskRatio` is, and the
returned string decodes to exactly `n` mask runes. -/
theorem mask_full_of_guard (s : List Nat) (c p q : Int) (r : Float64)
    (hc : validRune c) (hn : 1 ≤ RuneCountInString s)
    (h : (RuneCountInString s : Int) ≤ addInt p q) :
    (New c p q r).Mask s = .ok (stringsRepeat (runeToString c) (RuneCountInString s))
      ∧ stringToRunes (stringsRepeat (runeToString c) (RuneCountInString s))
        = List.replicate (RuneCountInString s) c :=
  ⟨maskString_rule2 s c p q r hn h, stringToRunes_stringsRepeat_valid c _ hc⟩

/-- Rule 2, on the mathematical sum: when `prefixLength + suffixLength` is at
least the rune count `n ≥ 1` and fits an `int`, `Mask` returns `n` copies of
the mask rune, whatever `minMaskRatio` is. -/
theorem mask_full_of_sum_fits (s : List Nat) (c p q : Int) (r : Float64)
    (hn : 1 ≤ RuneCountInString s) (h : (RuneCountInString s : Int) ≤ p + q)
    (hfit : p + q < 2 ^ 63) :
    (New c p q r).Mask s = .ok (stringsRepeat (runeToString c) (RuneCountInString s)) := by
  have hadd : addInt p q = p + q := by
    unfold addInt; exact wrapInt64_of_range _ (by omega) (by omega)
  exact maskString_rule2 s c p q r hn (by rw [hadd]; exact h)

/-- C2, at a failing input: with `prefixVisible = suffixVisible = 2^63 - 1`
(the maximum `int`) on the two-letter input "ab", the sum of the two counts
is far above 2, yet the `int` sum of the guard wraps to -2, rule 2 is
skipped, the mask count wraps to 4, the ratio 2.0 is not below 0.3, and
`result[:prefixLength]` panics instead of "**" being returned. -/
theorem C2_overflow_panics :
    RuneCountInString [97, 98] = 2
      ∧ (2 : Int) ≤ (2 ^ 63 - 1) + (2 ^ 63 - 1)
      ∧ addInt (2 ^ 63 - 1) (2 ^ 63 - 1) = -2
      ∧ subInt (subInt 2 (2 ^ 63 - 1)) (2 ^ 63 - 1) = 4
      ∧ (New 42 (2 ^ 63 - 1) (2 ^ 63 - 1) (Float64.ofConst 3 10)).Mask [97, 98]
        = .error GoPanic.sliceBounds
      ∧ (New 42 (2 ^ 63 - 1) (2 ^ 63 - 1) (Float64.ofConst 3 10)).Mask [97, 98]
        ≠ .ok (stringsRepeat (runeToString 42) 2) := by
  decide

/-- C3, as stated, fails: on "1234567890" with 5 and 4 visible code points
the exact ratio 1/10 is strictly below the `float64` written `0.1`, yet the
`float64` quotient `1.0 / 10.0` is that same `float64`, rule 3 does not fire
and the partial mask "12345*7890" is returned. -/
theorem C3_counterexample :
    RuneCountInString [49, 50, 51, 52, 53, 54, 55, 56, 57, 48] = 10
      ∧ Float64.ofConst 1 10 = .fin false 7205759403792794 (-56)
      ∧ (Float64.ofConst 1 10).valid
      ∧ (Float64.ofConst 1 10).gtRat ((((10 : Int) - 5 - 4 : Int) : ℚ) / ((10 : Nat) : ℚ))
      ∧ (New 42 5 4 (Float64.ofConst 1 10)).Mask [49, 50, 51, 52, 53, 54, 55, 56, 57, 48]
        = .ok [49, 50, 51, 52, 53, 42, 55, 56, 57, 48]
      ∧ (New 42 5 4 (Float64.ofConst 1 10)).Mask [49, 50, 51, 52, 53, 54, 55, 56, 57, 48]
        ≠ .ok (stringsRepeat (runeToString 42) 10) := by
  have hr : Float64.ofConst 1 10 = .fin false 7205759403792794 (-56) := by decide
  refine ⟨by decide, hr, by decide, ?_, by decide, by decide⟩
  rw [hr]
  norm_num [Float64.gtRat, Float64.toRat]

/-- C3 (ratio escalation, amended). For an input of `n ≥ 1` code points and a
configuration with non-negative `prefixVisible = p`, `suffixVisible = q` and
`p + q < n`, if the `float64` quotient `float64(n - p - q) / float64(n)`
(rounded to nearest) is strictly below `minMaskRatio`, `Masker.Mask` returns
`n` copies of the mask symbol, a string that decodes to exactly `n` mask
symbols. -/
theorem C3_ratio_escalation (s : List Nat) (c p q : Int) (r : Float64)
    (hc : validRune c) (hn1 : 1 ≤ RuneCountInString s) (hn2 : RuneCountInString s < 2 ^ 63)
    (hp : 0 ≤ p) (hq : 0 ≤ q) (hpq : p + q < (RuneCountInString s : Int))
    (hlt : Float64.lt (Float64.div (Float64.ofInt ((RuneCountInString s : Int) - p - q))
      (Float64.ofInt (RuneCountInString s : Int))) r = true) :
    (New c p q r).Mask s = .ok (stringsRepeat (runeToString c) (RuneCountInString s))
      ∧ stringToRunes (stringsRepeat (runeToString c) (RuneCountInString s))
        = List.replicate (RuneCountInString s) c := by
  refine ⟨?_, stringToRunes_stringsRepeat_valid c _ hc⟩
  have hadd : addInt p q = p + q := by
    unfold addInt; exact wrapInt64_of_range _ (by omega) (by omega)
  have hsub : subInt (subInt (RuneCountInString s : Int) p) q
      = (RuneCountInString s : Int) - p - q := by
    unfold subInt
    rw [wrapInt64_of_range ((RuneCountInString s : Int) - p) (by omega) (by omega)]
    exact wrapInt64_of_range _ (by omega) (by omega)
  exact maskString_rule3 s c p q r hn1 (by rw [hadd]; exact hpq) (by rw [hsub]; exact hlt)

theorem C3_ratio_escalation_witness :
    (New 42 4 4 (Float64.ofConst 1 2)).Mask [49, 50, 51, 52, 53, 54, 55, 56, 57, 48]
      = .ok [42, 42, 42, 42, 42, 42, 42, 42, 42, 42] := by
  have h := (C3_ratio_escalation [49, 50, 51, 52, 53, 54, 55, 56, 57, 48] 42 4 4
    (Float64.ofConst 1 2) (by decide) (by decide) (by decide) (by decide) (by decide)
    (by decide) (by decide)).1
  rw [h]; decide

/-- C4 (length preservation). Whatever the input and the configuration, every
string `Masker.Mask` returns has the code-point length of the input; and it
does return one whenever `prefixVisible` and `suffixVisible` are non-negative
with a sum that fits an `int`. -/
theorem C4_length_preservation (s : List Nat) (c p q : Int) (r : Float64) :
    (∀ out, (New c p q r).Mask s = .ok out → RuneCountInString out = RuneCountInString s)
      ∧ (0 ≤ p → 0 ≤ q → p + q < 2 ^ 63 → RuneCountInString s < 2 ^ 63 →
          ∃ out, (New c p q r).Mask s = .ok out) :=
  ⟨fun out h => maskString_runeCount s c p q r out h,
    fun hp hq hfit hn => maskString_returns s c p q r hp hq hfit hn⟩

theorem C4_length_preservation_witness :
    RuneCountInString [49, 50, 42, 42, 42, 42, 42, 42, 57, 48]
      = RuneCountInString [49, 50, 51, 52, 53, 54, 55, 56, 57, 48] :=
  (C4_length_preservation [49, 50, 51, 52, 53, 54, 55, 56, 57, 48] 42 2 2
    (Float64.ofConst 3 10)).1 _ (by decide)

/-- C5 (empty-input identity). For every configuration, `Masker.Mask("")`
returns `""`. -/
theorem C5_empty_input (c p q : Int) (r : Float64) : (New c p q r).Mask [] = .ok [] :=
  maskString_rule1 c p q r

/-- C6, at its failing input: with `prefixVisible = suffixVisible = 2^63 - 1`
on the one-letter input "a" the sum wraps to -2, rule 2 is skipped, the mask
count wraps to 3, and `result[:prefixLength]` panics. -/
theorem C6_overflow_panics :
    addInt (2 ^ 63 - 1) (2 ^ 63 - 1) = -2
      ∧ subInt (subInt 1 (2 ^ 63 - 1)) (2 ^ 63 - 1) = 3
      ∧ maskString [97] 42 (2 ^ 63 - 1) (2 ^ 63 - 1) (Float64.ofConst 3 10)
        = .error GoPanic.sliceBounds := by
  decide

/-- On the encoding of valid code points, with a sum of the two lengths that
fits an `int`, `maskString` is the code-point mask with the `float64` ratio,
encoded. -/
theorem maskString_runesToString_of_fits (runes : List Int) (c : Int) (p q : Nat) (r : Float64)
    (hrunes : ∀ x ∈ runes, validRune x) (hfit : p + q < 2 ^ 63) (hlen : runes.length < 2 ^ 63) :
    maskString (runesToString runes) c (p : Int) (q : Int) r
      = .ok (runesToString (maskCodePointsF64 runes c p q r)) := by
  have hdec : stringToRunes (runesToString runes) = runes :=
    stringToRunes_runesToString_valid runes hrunes
  have hcount : RuneCountInString (runesToString runes) = runes.length :=
    runeCount_runesToString runes
  have hadd : addInt (p : Int) (q : Int) = (p : Int) + q := by
    unfold addInt; exact wrapInt64_of_range _ (by omega) (by omega)
  unfold maskCodePointsF64
  split_ifs with h1 h2 h3
  · have : runes = [] := List.length_eq_zero.1 h1
    subst this
    exact maskString_rule1 c p q r
  · rw [maskString_rule2 _ c p q r (by omega) (by rw [hadd, hcount]; omega), hcount,
      stringsRepeat_eq]
  · have hsub : subInt (subInt (runes.length : Int) (p : Int)) (q : Int)
        = (runes.length : Int) - p - q := by
      unfold subInt
      rw [wrapInt64_of_range ((runes.length : Int) - p) (by omega) (by omega)]
      exact wrapInt64_of_range _ (by omega) (by omega)
    rw [maskString_rule3 _ c p q r (by omega) (by rw [hadd, hcount]; omega)
      (by rw [hcount, hsub]; exact h3), hcount, stringsRepeat_eq]
  · rw [maskString_rule4 _ c p q r (by omega) (by omega) (by rw [hcount]; omega)
      (by omega) (by rw [hcount]; simpa using h3), hdec, Int.toNat_ofNat, Int.toNat_ofNat]

theorem maskCodePointsF64_valid (runes : List Int) (c : Int) (p q : Nat) (r : Float64)
    (hrunes : ∀ x ∈ runes, validRune x) (hc : validRune c) :
    ∀ x ∈ maskCodePointsF64 runes c p q r, validRune x := by
  unfold maskCodePointsF64
  split_ifs
  · exact hrunes
  · intro x hx; rw [(List.mem_replicate.1 hx).2]; exact hc
  · intro x hx; rw [(List.mem_replicate.1 hx).2]; exact hc
  · exact partialMask_valid runes c p q hrunes hc

theorem maskCodePointsF64_length (runes : List Int) (c : Int) (p q : Nat) (r : Float64) :
    (maskCodePointsF64 runes c p q r).length = runes.length := by
  unfold maskCodePointsF64
  split_ifs with h1 h2 h3
  · rfl
  · exact List.length_replicate _ _
  · exact List.length_replicate _ _
  · unfold partialMask
    simp only [List.length_append, List.length_take, List.length_replicate, List.length_drop]
    omega

/-- C8 (strict comparison). For an input of `n ≥ 1` code points and a
configuration with non-negative `prefixVisible = p`, `suffixVisible = q` and
`p + q < n`, if `(n - p - q) / n` is exactly `minMaskRatio`, `Masker.Mask`
returns the partial mask (the first `p` code points, `n - p - q` mask symbols,
the last `q` code points), a string that decodes to exactly this sequence. -/
theorem C8_strict_comparison (s : List Nat) (c p q : Int) (r : Float64)
    (hc : validRune c) (hv : r.valid)
    (hn1 : 1 ≤ RuneCountInString s) (hn2 : RuneCountInString s ≤ 2 ^ 53)
    (hp : 0 ≤ p) (hq : 0 ≤ q) (hpq : p + q < (RuneCountInString s : Int))
    (hratio : r.eqRat ((((RuneCountInString s : Int) - p - q : Int) : ℚ)
      / ((RuneCountInString s : Nat) : ℚ))) :
    (New c p q r).Mask s
        = .ok (runesToString ((stringToRunes s).take p.toNat
            ++ List.replicate ((stringToRunes s).length - p.toNat - q.toNat) c
            ++ (stringToRunes s).drop ((stringToRunes s).length - q.toNat)))
      ∧ stringToRunes (runesToString ((stringToRunes s).take p.toNat
            ++ List.replicate ((stringToRunes s).length - p.toNat - q.toNat) c
            ++ (stringToRunes s).drop ((stringToRunes s).length - q.toNat)))
        = (stringToRunes s).take p.toNat
            ++ List.replicate ((stringToRunes s).length - p.toNat - q.toNat) c
            ++ (stringToRunes s).drop ((stringToRunes s).length - q.toNat) := by
  refine ⟨?_, stringToRunes_partialMask s c p.toNat q.toNat hc⟩
  have hmc : (RuneCountInString s : Int) - p - q
      = ((RuneCountInString s - p.toNat - q.toNat : Nat) : Int) := by omega
  refine maskString_rule4 s c p q r hp hq hpq (by omega) ?_
  rw [hmc]
  refine Float64.maskRatio_not_lt _ _ (by omega) (by omega) (by omega) hn2 r hv ?_
  rw [hmc, Int.cast_natCast] at hratio
  cases r with
  | nan => exact absurd hratio (by simp [Float64.eqRat])
  | inf neg => exact absurd hratio (by simp [Float64.eqRat])
  | fin neg m e => exact le_of_eq hratio

theorem C8_strict_comparison_witness :
    (New 42 2 2 (Float64.ofConst 1 2)).Mask [49, 50, 51, 52, 53, 54, 55, 56]
      = .ok [49, 50, 42, 42, 42, 42, 55, 56] := by
  have hcount : RuneCountInString [49, 50, 51, 52, 53, 54, 55, 56] = 8 := by decide
  have hr : Float64.ofConst 1 2 = .fin false 4503599627370496 (-53) := by decide
  have h := (C8_strict_comparison [49, 50, 51, 52, 53, 54, 55, 56] 42 2 2
    (Float64.ofConst 1 2) (by decide) (by decide) (by decide) (by decide) (by decide)
    (by decide) (by decide)
    (by rw [hcount, hr]; norm_num [Float64.eqRat, Float64.toRat])).1
  rw [h]; decide

/-- C9 (a `minMaskRatio` of 0 disables the ratio check). For an input of
`n ≥ 1` code points and a configuration with `minMaskRatio = 0` and
non-negative `prefixVisible = p`, `suffixVisible = q` with `p + q < n`,
`Masker.Mask` returns the partial mask (the first `p` code points,
`n - p - q` mask symbols, the last `q` code points), a string that decodes to
exactly this sequence. -/
theorem C9_zero_ratio (s : List Nat) (c p q : Int) (r : Float64)
    (hc : validRune c) (hr : r.eqRat 0)
    (hn1 : 1 ≤ RuneCountInString s) (hn2 : RuneCountInString s < 2 ^ 63)
    (hp : 0 ≤ p) (hq : 0 ≤ q) (hpq : p + q < (RuneCountInString s : Int)) :
    (New c p q r).Mask s
        = .ok (runesToString ((stringToRunes s).take p.toNat
            ++ List.replicate ((stringToRunes s).length - p.toNat - q.toNat) c
            ++ (stringToRunes s).drop ((stringToRunes s).length - q.toNat)))
      ∧ stringToRunes (runesToString ((stringToRunes s).take p.toNat
            ++ List.replicate ((stringToRunes s).length - p.toNat - q.toNat) c
            ++ (stringToRunes s).drop ((stringToRunes s).length - q.toNat)))
        = (stringToRunes s).take p.toNat
            ++ List.replicate ((stringToRunes s).length - p.toNat - q.toNat) c
            ++ (stringToRunes s).drop ((stringToRunes s).length - q.toNat) := by
  refine ⟨?_, stringToRunes_partialMask s c p.toNat q.toNat hc⟩
  exact maskString_rule4 s c p q r hp hq hpq hn2
    (Float64.maskRatio_not_lt_zero _ _ (by omega) (by omega) r hr)

theorem C9_zero_ratio_witness :
    (New 42 2 2 (Float64.ofConst 0 1)).Mask [49, 50, 51, 52, 53]
      = .ok [49, 50, 42, 52, 53] := by
  have hr : Float64.ofConst 0 1 = .fin false 0 0 := by decide
  have h := (C9_zero_ratio [49, 50, 51, 52, 53] 42 2 2 (Float64.ofConst 0 1) (by decide)
    (by rw [hr]; norm_num [Float64.eqRat, Float64.toRat]) (by decide) (by decide) (by decide)
    (by decide) (by decide)).1
  rw [h]; decide

/-- With a `minMaskRatio` of 1 and non-negative lengths whose sum fits an
`int`, every code point of an input of at most `2^53` code points is masked. -/
theorem maskString_ratio_one (s : List Nat) (c p q : Int) (r : Float64)
    (hr : r.eqRat 1) (hn1 : 1 ≤ RuneCountInString s) (hn2 : RuneCountInString s ≤ 2 ^ 53)
    (hp : 0 ≤ p) (hq : 0 ≤ q) (hfit : p + q < 2 ^ 63) :
    maskString s c p q r = .ok (stringsRepeat (runeToString c) (RuneCountInString s)) := by
  have hadd : addInt p q = p + q := by
    unfold addInt; exact wrapInt64_of_range _ (by omega) (by omega)
  rcases le_or_lt (RuneCountInString s : Int) (p + q) with h2 | h2
  · exact maskString_rule2 s c p q r hn1 (by rw [hadd]; exact h2)
  have hsub : subInt (subInt (RuneCountInString s : Int) p) q
      = (RuneCountInString s : Int) - p - q := by
    unfold subInt
    rw [wrapInt64_of_range ((RuneCountInString s : Int) - p) (by omega) (by omega)]
    exact wrapInt64_of_range _ (by omega) (by omega)
  have hmc : (RuneCountInString s : Int) - p - q
      = ((RuneCountInString s - p.toNat - q.toNat : Nat) : Int) := by omega
  rcases Nat.eq_zero_or_pos (p.toNat + q.toNat) with h0 | hpos
  · -- nothing is visible: the partial mask is the full mask
    have hp0 : p = 0 := by omega
    have hq0 : q = 0 := by omega
    subst hp0 hq0
    have hlt : Float64.lt (Float64.div (Float64.ofInt ((RuneCountInString s : Int) - 0 - 0))
        (Float64.ofInt (RuneCountInString s : Int))) r = false := by
      cases hl : Float64.lt (Float64.div (Float64.ofInt ((RuneCountInString s : Int) - 0 - 0))
        (Float64.ofInt (RuneCountInString s : Int))) r with
      | false => rfl
      | true =>
        exfalso
        rw [sub_zero, sub_zero] at hl
        obtain ⟨a, b, ha, hb, hab, hdiv⟩ := Float64.maskRatio_eq (RuneCountInString s)
          (RuneCountInString s) (by omega) hn2 (by omega) hn2
        have hnq : ((RuneCountInString s : Nat) : ℚ) ≠ 0 := by
          exact_mod_cast (by omega : RuneCountInString s ≠ 0)
        rw [div_self hnq] at hab
        rw [hdiv] at hl
        have hone : (Float64.fin false (2 ^ 52) (-52)).valid :=
          ⟨by norm_num, by omega, by omega⟩
        have hval : Float64.toRat (Float64.fin false (2 ^ 52) (-52)) = 1 := by
          rw [Float64.toRat_fin_pos]; norm_num
        rcases Float64.roundRat_ge a b ha hb false _ _ hone (by rw [hval, hab]) with hinf | ⟨heq, hle⟩
        · rw [hinf] at hl
          cases r with
          | nan => exact absurd hr (by simp [Float64.eqRat])
          | inf neg => exact absurd hr (by simp [Float64.eqRat])
          | fin neg m e => simp [Float64.lt] at hl
        · rw [heq] at hl
          cases r with
          | nan => exact absurd hr (by simp [Float64.eqRat])
          | inf neg => exact absurd hr (by simp [Float64.eqRat])
          | fin neg m e =>
            have hr1 : Float64.toRat (Float64.fin neg m e) = 1 := hr
            rw [Float64.lt_fin_iff, hr1] at hl
            rw [hval] at hle
            linarith
    have hpm : partialMask (stringToRunes s) c (0 : Int).toNat (0 : Int).toNat
        = List.replicate (RuneCountInString s) c := by
      unfold partialMask
      simp [runeCount_eq_length]
    rw [maskString_rule4 s c 0 0 r (le_refl 0) (le_refl 0) (by omega) (by omega) hlt,
      stringsRepeat_eq, hpm]
  · have hlt := Float64.maskRatio_lt_one (RuneCountInString s - p.toNat - q.toNat)
      (RuneCountInString s) (by omega) (by omega) hn2 r hr
    rw [← hmc] at hlt
    exact maskString_rule3 s c p q r hn1 (by rw [hadd]; exact h2) (by rw [hsub]; exact hlt)

/-- C10, at its failing input: with `minMaskRatio = 1` and
`prefixVisible = suffixVisible = 2^63 - 1` on the one-letter input "a",
`Masker.Mask` panics instead of returning "*". -/
theorem C10_overflow_panics :
    (New 42 (2 ^ 63 - 1) (2 ^ 63 - 1) (Float64.ofConst 1 1)).Mask [97]
      = .error GoPanic.sliceBounds := by
  decide

/-! ## What an output of `maskString` tells about its arguments -/

theorem copyPrefix_ok_bounds (dst src : List Int) (hi : Int) (out : List Int)
    (h : copyPrefix dst src hi = .ok out) : 0 ≤ hi ∧ hi ≤ dst.length := by
  unfold copyPrefix at h
  split_ifs at h with h1 h2
  exact h1

theorem copySuffix_ok_bounds (dst src : List Int) (lo : Int) (out : List Int)
    (h : copySuffix dst src lo = .ok out) : 0 ≤ lo ∧ lo ≤ dst.length := by
  unfold copySuffix at h
  split_ifs at h with h1 h2
  exact h1

/-- A string comes out of `maskString` by one of its four returns; the last
one is only reached with both lengths between 0 and the rune count. -/
theorem maskString_ok_cases (s : List Nat) (c p q : Int) (r : Float64) (out : List Nat)
    (hq1 : -2 ^ 63 ≤ q) (hq2 : q < 2 ^ 63) (hn : RuneCountInString s < 2 ^ 63)
    (h : maskString s c p q r = .ok out) :
    (s = [] ∧ out = [])
      ∨ (1 ≤ RuneCountInString s
          ∧ ((RuneCountInString s : Int) ≤ addInt p q
            ∨ Float64.lt (Float64.div
                (Float64.ofInt (subInt (subInt (RuneCountInString s : Int) p) q))
                (Float64.ofInt (RuneCountInString s : Int))) r = true)
          ∧ out = stringsRepeat (runeToString c) (RuneCountInString s))
      ∨ (1 ≤ RuneCountInString s
          ∧ addInt p q < (RuneCountInString s : Int)
          ∧ Float64.lt (Float64.div
              (Float64.ofInt (subInt (subInt (RuneCountInString s : Int) p) q))
              (Float64.ofInt (RuneCountInString s : Int))) r = false
          ∧ 0 ≤ p ∧ p ≤ (RuneCountInString s : Int)
          ∧ 0 ≤ q ∧ q ≤ (RuneCountInString s : Int)) := by
  unfold maskString at h
  dsimp only at h
  split_ifs at h with h1 h2 h3
  · left
    have h0 : RuneCountInString s = 0 := by omega
    have := runeCount_eq_zero h0
    subst this
    cases h
    exact ⟨rfl, rfl⟩
  · right; left
    cases h
    exact ⟨by omega, Or.inl h2, by rw [Int.toNat_ofNat]⟩
  · right; left
    cases h
    exact ⟨by omega, Or.inr h3, by rw [Int.toNat_ofNat]⟩
  · right; right
    cases hcp : copyPrefix (List.replicate (RuneCountInString s : Int).toNat 0)
        (stringToRunes s) p with
    | error e => rw [hcp] at h; cases h
    | ok res1 =>
      rw [hcp] at h
      dsimp only at h
      cases hl : maskLoop c p (subInt (subInt (RuneCountInString s : Int) p) q).toNat 0 res1 with
      | error e => rw [hl] at h; cases h
      | ok res2 =>
        rw [hl] at h
        dsimp only at h
        cases hs : copySuffix res2 (stringToRunes s) (subInt (RuneCountInString s : Int) q) with
        | error e => rw [hs] at h; cases h
        | ok res3 =>
          have hb1 := copyPrefix_ok_bounds _ _ _ _ hcp
          have hb2 := copySuffix_ok_bounds _ _ _ _ hs
          rw [maskLoop_length _ _ _ _ _ _ hl, copyPrefix_length _ _ _ _ hcp,
            List.length_replicate, Int.toNat_ofNat] at hb2
          rw [List.length_replicate, Int.toNat_ofNat] at hb1
          have hlt : Float64.lt (Float64.div
              (Float64.ofInt (subInt (subInt (RuneCountInString s : Int) p) q))
              (Float64.ofInt (RuneCountInString s : Int))) r = false := by
            simpa using h3
          refine ⟨by omega, by omega, hlt, hb1.1, hb1.2, ?_, ?_⟩
          · unfold subInt wrapInt64 at hb2; omega
          · unfold subInt wrapInt64 at hb2; omega

/-- With a rune count below `2^62`, the partial-mask return gives the
partial mask, and its lengths sum to less than the rune count. -/
theorem maskString_ok_partial (s : List Nat) (c p q : Int) (r : Float64)
    (hn : RuneCountInString s < 2 ^ 62)
    (h2 : addInt p q < (RuneCountInString s : Int))
    (h3 : Float64.lt (Float64.div
      (Float64.ofInt (subInt (subInt (RuneCountInString s : Int) p) q))
      (Float64.ofInt (RuneCountInString s : Int))) r = false)
    (hp1 : 0 ≤ p) (hp2 : p ≤ (RuneCountInString s : Int))
    (hq1 : 0 ≤ q) (hq2 : q ≤ (RuneCountInString s : Int)) :
    p + q < (RuneCountInString s : Int)
      ∧ Float64.lt (Float64.div (Float64.ofInt ((RuneCountInString s : Int) - p - q))
          (Float64.ofInt (RuneCountInString s : Int))) r = false
      ∧ maskString s c p q r
        = .ok (runesToString (partialMask (stringToRunes s) c p.toNat q.toNat)) := by
  have hadd : addInt p q = p + q := by
    unfold addInt; exact wrapInt64_of_range _ (by omega) (by omega)
  have hsub : subInt (subInt (RuneCountInString s : Int) p) q
      = (RuneCountInString s : Int) - p - q := by
    unfold subInt
    rw [wrapInt64_of_range ((RuneCountInString s : Int) - p) (by omega) (by omega)]
    exact wrapInt64_of_range _ (by omega) (by omega)
  rw [hadd] at h2
  rw [hsub] at h3
  exact ⟨h2, h3, maskString_rule4 s c p q r hp1 hq1 h2 (by omega) h3⟩

namespace Float64

/-! ## The mask ratio when the sum of the lengths overflows -/

theorem one_valid : (fin false (2 ^ 52) (-52)).valid := ⟨by norm_num, by omega, by omega⟩

theorem toRat_one : toRat (fin false (2 ^ 52) (-52)) = 1 := by
  rw [toRat_fin_pos]; norm_num

/-- A natural number of at most 53 bits is a binary64. -/
theorem exists_valid_of_nat (n : Nat) (h2 : n ≤ 2 ^ 53) :
    ∃ mr er, (fin false mr er).valid ∧ toRat (fin false mr er) = (n : ℚ) := by
  rcases Nat.lt_or_ge n (2 ^ 53) with hlt | hge
  · exact ⟨n, 0, ⟨hlt, by omega, by omega⟩, by simp [toRat]⟩
  · have : n = 2 ^ 53 := le_antisymm h2 hge
    subst this
    exact ⟨2 ^ 52, 1, ⟨by norm_num, by omega, by omega⟩, by simp [toRat]; norm_num⟩

/-- The rounded significand of a quotient that is not below the smallest
subnormal is positive. -/
theorem roundSig_pos (a b : Nat) (ha : 0 < a) (hb : 0 < b) (hf : -1074 ≤ floorLog2 a b) :
    0 < roundSig a b := by
  refine le_roundSig a b 1 hb ?_
  have h1 := (floorLog2_spec a b ha hb).1
  have h2 : ulpExp a b ≤ floorLog2 a b := by unfold ulpExp; omega
  calc ((1 : Nat) : ℚ) * (2 : ℚ) ^ (ulpExp a b) = (2 : ℚ) ^ (ulpExp a b) := by simp
    _ ≤ (2 : ℚ) ^ (floorLog2 a b) := zpow_le_zpow_right₀ (by norm_num) h2
    _ ≤ (a : ℚ) / b := h1

theorem floorLog2_ge (a b : Nat) (ha : 0 < a) (hb : 0 < b) (k : Int)
    (h : (2 : ℚ) ^ k ≤ (a : ℚ) / b) : k ≤ floorLog2 a b := by
  by_contra hc
  have h1 := (floorLog2_spec a b ha hb).2
  have h2 : (2 : ℚ) ^ (floorLog2 a b + 1) ≤ (2 : ℚ) ^ k :=
    zpow_le_zpow_right₀ (by norm_num) (by omega)
  exact absurd (lt_of_lt_of_le h1 (le_trans h2 h)) (lt_irrefl _)

/-- `float64(x)` of a positive `int` is `+Inf` or a finite value, at least
every binary64 that `x` is at least. -/
theorem ofInt_ge (x : Nat) (hx : 0 < x) (mr : Nat) (er : Int) (hv : (fin false mr er).valid)
    (h : toRat (fin false mr er) ≤ (x : ℚ)) :
    ofInt (x : Int) = inf false
      ∨ ∃ m e, ofInt (x : Int) = fin false m e
          ∧ toRat (fin false mr er) ≤ (m : ℚ) * (2 : ℚ) ^ e := by
  have hof : ofInt (x : Int) = roundRat false x 1 := by
    unfold ofInt
    rw [Int.natAbs_ofNat, decide_eq_false (by omega)]
  rw [hof]
  rcases roundRat_ge x 1 hx (by omega) false mr er hv (by simpa using h) with h1 | ⟨h1, h2⟩
  · exact Or.inl h1
  · exact Or.inr ⟨_, _, h1, by rw [toRat_fin_pos (roundSig x 1)] at h2; exact h2⟩

/-- Rule 3 does not fire against a `minMaskRatio` of at most 1 when the mask
count is at least the length. -/
theorem maskRatio_ge_one (mc n : Nat) (h1 : 0 < n) (h2 : n ≤ 2 ^ 53) (h3 : n ≤ mc)
    (r : Float64) (hr : r.leRat 1) :
    lt (div (ofInt (mc : Int)) (ofInt (n : Int))) r = false := by
  obtain ⟨m2, e2, hof2, hv2, hm2⟩ := ofInt_exact n h1 h2
  obtain ⟨mr, er, hvr, hvalr⟩ := exists_valid_of_nat n h2
  have hnq : (0 : ℚ) < (n : ℚ) := by exact_mod_cast h1
  have hle : toRat (fin false mr er) ≤ (mc : ℚ) := by
    rw [hvalr]; exact_mod_cast h3
  -- nothing that is `+Inf` or at least 1 is below `r`
  have hfin : ∀ (m : Nat) (e : Int), (1 : ℚ) ≤ (m : ℚ) * (2 : ℚ) ^ e →
      lt (fin false m e) r = false := by
    intro m e hme
    cases r with
    | nan => rfl
    | inf neg =>
      have : neg = true := hr
      subst this; rfl
    | fin neg m3 e3 =>
      have hr1 : toRat (fin neg m3 e3) ≤ 1 := hr
      rw [Bool.eq_false_iff]
      intro hlt
      rw [lt_fin_iff, toRat_fin_pos] at hlt
      linarith
  have hinf : lt (inf false) r = false := by
    cases r with
    | nan => rfl
    | inf neg =>
      have : neg = true := hr
      subst this; rfl
    | fin neg m3 e3 => rfl
  rcases ofInt_ge mc (by omega) mr er hvr hle with h | ⟨m1, e1, hof1, hge1⟩
  · rw [h, hof2]
    simp only [div, Bool.xor_false]
    exact hinf
  · rw [hvalr] at hge1
    have hm1 : 0 < m1 := by
      rcases Nat.eq_zero_or_pos m1 with h0 | hpos
      · exfalso
        rw [h0] at hge1
        simp at hge1
        linarith
      · exact hpos
    rw [hof1, hof2, div_fin_fin m1 e1 m2 e2 hm2]
    have ha : 0 < m1 * 2 ^ (e1 - e2).toNat := Nat.mul_pos hm1 (pow_pos (by norm_num) _)
    have hb : 0 < m2 * 2 ^ (e2 - e1).toNat := Nat.mul_pos hm2 (pow_pos (by norm_num) _)
    have hquot : (1 : ℚ) ≤ ((m1 * 2 ^ (e1 - e2).toNat : Nat) : ℚ)
        / ((m2 * 2 ^ (e2 - e1).toNat : Nat) : ℚ) := by
      rw [cast_div_scale m1 e1 m2 e2 hm2, hv2, one_le_div hnq]
      exact hge1
    rcases roundRat_ge _ _ ha hb false _ _ one_valid (by rw [toRat_one]; exact hquot) with
      h | ⟨h, hge⟩
    · rw [h]; exact hinf
    · rw [h]
      rw [toRat_one, toRat_fin_pos] at hge
      exact hfin _ _ hge

theorem roundRat_neg_shape (a b : Nat) (ha : 0 < a) (hb : 0 < b)
    (hf : -1074 ≤ floorLog2 a b) :
    roundRat true a b = inf true
      ∨ ∃ m e, roundRat true a b = fin true m e ∧ 0 < m := by
  rw [roundRat_eq true a b ha]
  cases overflows (roundSig a b) (ulpExp a b) with
  | true => exact Or.inl rfl
  | false => exact Or.inr ⟨_, _, rfl, roundSig_pos a b ha hb hf⟩

/-- Rule 3 fires against a non-negative `minMaskRatio` when the mask count is
negative. -/
theorem maskRatio_neg_lt (k n : Nat) (hk : 0 < k) (h1 : 0 < n) (h2 : n ≤ 2 ^ 53)
    (neg : Bool) (mr : Nat) (er : Int) (hr : 0 ≤ toRat (fin neg mr er)) :
    lt (div (ofInt (-(k : Int))) (ofInt (n : Int))) (fin neg mr er) = true := by
  obtain ⟨m2, e2, hof2, hv2, hm2⟩ := ofInt_exact n h1 h2
  have hnq : (0 : ℚ) < (n : ℚ) := by exact_mod_cast h1
  have hn53 : (n : ℚ) ≤ (2 : ℚ) ^ (53 : Nat) := by exact_mod_cast h2
  have hof : ofInt (-(k : Int)) = roundRat true k 1 := by
    unfold ofInt
    rw [Int.natAbs_neg, Int.natAbs_ofNat, decide_eq_true (by omega)]
  -- a negative finite value and `-Inf` are below `r`
  have hfin : ∀ (m : Nat) (e : Int), 0 < m → lt (fin true m e) (fin neg mr er) = true := by
    intro m e hm
    rw [lt_fin_iff, toRat_fin_neg]
    have : (0 : ℚ) < (m : ℚ) * (2 : ℚ) ^ e :=
      mul_pos (by exact_mod_cast hm) (two_zpow_pos _)
    linarith
  have hk1 : (2 : ℚ) ^ (0 : Int) ≤ ((k : Nat) : ℚ) / ((1 : Nat) : ℚ) := by
    have : (1 : ℚ) ≤ (k : ℚ) := by exact_mod_cast hk
    simpa using this
  have hfk := floorLog2_ge k 1 hk (by omega) 0 hk1
  rw [hof, hof2]
  rcases roundRat_neg_shape k 1 hk (by omega) (by omega) with h | ⟨m1, e1, h, hm1⟩
  · rw [h]; rfl
  · -- the value of `float64(-k)` is at most -1
    have hval : (1 : ℚ) ≤ (m1 : ℚ) * (2 : ℚ) ^ e1 := by
      have hsh := roundRat_eq true k 1 hk
      rw [h] at hsh
      cases hov : overflows (roundSig k 1) (ulpExp k 1) with
      | true => rw [hov] at hsh; simp at hsh
      | false =>
        rw [hov] at hsh
        simp only [Bool.false_eq_true, if_false, fin.injEq, true_and] at hsh
        obtain ⟨hm, he⟩ := hsh
        have hshape := roundRat_eq false k 1 hk
        rw [hov] at hshape
        simp only [Bool.false_eq_true, if_false] at hshape
        rcases roundRat_ge k 1 hk (by omega) false _ _ one_valid
          (by rw [toRat_one]; simpa using hk1) with hinf | ⟨_, hge⟩
        · rw [hshape] at hinf; cases hinf
        · rw [toRat_one, toRat_fin_pos, ← hm, ← he] at hge
          exact hge
    rw [h]
    simp only [div]
    rw [if_neg (by omega)]
    have ha : 0 < m1 * 2 ^ (e1 - e2).toNat := Nat.mul_pos hm1 (pow_pos (by norm_num) _)
    have hb : 0 < m2 * 2 ^ (e2 - e1).toNat := Nat.mul_pos hm2 (pow_pos (by norm_num) _)
    have hquot : (2 : ℚ) ^ (-53 : Int) ≤ ((m1 * 2 ^ (e1 - e2).toNat : Nat) : ℚ)
        / ((m2 * 2 ^ (e2 - e1).toNat : Nat) : ℚ) := by
      rw [cast_div_scale m1 e1 m2 e2 hm2, hv2, le_div_iff₀ hnq]
      have h53 : (2 : ℚ) ^ (-53 : Int) * (2 : ℚ) ^ (53 : Nat) = 1 := by norm_num
      have hp : (0 : ℚ) < (2 : ℚ) ^ (-53 : Int) := two_zpow_pos _
      nlinarith
    have hfq := floorLog2_ge _ _ ha hb (-53) hquot
    rcases roundRat_neg_shape _ _ ha hb (by omega) with h3 | ⟨m, e, h3, hm⟩
    · show lt (roundRat (xor true false) _ _) _ = true
      rw [Bool.xor_false, h3]; rfl
    · show lt (roundRat (xor true false) _ _) _ = true
      rw [Bool.xor_false, h3]; exact hfin m e hm

end Float64

/-- The extent of the overflow of `prefixLength+suffixLength`. For at most
`2^53` code points, non-negative `int` lengths whose true sum is at least the
rune count, and a finite `minMaskRatio` in `[0, 1]`: up to a sum of
`n + 2^63` every code point is masked (by rule 2 while the sum fits an `int`,
by rule 3 on a negative mask count beyond), above it `maskString` panics. -/
theorem maskString_large_counts (s : List Nat) (c p q : Int) (neg : Bool) (mr : Nat) (er : Int)
    (hn1 : 1 ≤ RuneCountInString s) (hn2 : RuneCountInString s ≤ 2 ^ 53)
    (hp1 : 0 ≤ p) (hp2 : p < 2 ^ 63) (hq1 : 0 ≤ q) (hq2 : q < 2 ^ 63)
    (hsum : (RuneCountInString s : Int) ≤ p + q)
    (hr0 : 0 ≤ Float64.toRat (.fin neg mr er)) (hr1 : Float64.toRat (.fin neg mr er) ≤ 1) :
    (p + q ≤ (RuneCountInString s : Int) + 2 ^ 63 →
        maskString s c p q (.fin neg mr er)
          = .ok (stringsRepeat (runeToString c) (RuneCountInString s)))
      ∧ ((RuneCountInString s : Int) + 2 ^ 63 < p + q →
        maskString s c p q (.fin neg mr er) = .error GoPanic.sliceBounds
          ∨ maskString s c p q (.fin neg mr er) = .error GoPanic.indexOutOfRange) := by
  constructor
  · intro hle
    rcases lt_or_le (p + q) (2 ^ 63) with hfit | hwrap
    · have hadd : addInt p q = p + q := by
        unfold addInt; exact wrapInt64_of_range _ (by omega) (by omega)
      exact maskString_rule2 s c p q _ hn1 (by rw [hadd]; exact hsum)
    · have hadd : addInt p q < (RuneCountInString s : Int) := by
        unfold addInt wrapInt64; omega
      have hsub : subInt (subInt (RuneCountInString s : Int) p) q
          = -((p + q - (RuneCountInString s : Int)).toNat : Int) := by
        unfold subInt wrapInt64; omega
      refine maskString_rule3 s c p q _ hn1 hadd ?_
      rw [hsub]
      exact Float64.maskRatio_neg_lt _ _ (by omega) (by omega) hn2 neg mr er hr0
  · intro hgt
    cases h : maskString s c p q (.fin neg mr er) with
    | error e => cases e <;> simp
    | ok out =>
      exfalso
      have hadd : addInt p q < (RuneCountInString s : Int) := by
        unfold addInt wrapInt64; omega
      have hsub : subInt (subInt (RuneCountInString s : Int) p) q
          = (((RuneCountInString s : Int) - p - q + 2 ^ 64).toNat : Int) := by
        unfold subInt wrapInt64; omega
      have hmc : RuneCountInString s
          ≤ ((RuneCountInString s : Int) - p - q + 2 ^ 64).toNat := by omega
      have hlt := Float64.maskRatio_ge_one _ (RuneCountInString s) (by omega) hn2 hmc
        (.fin neg mr er) hr1
      rcases maskString_ok_cases s c p q _ out (by omega) hq2 (by omega) h with
        ⟨h0, _⟩ | ⟨_, hr, _⟩ | ⟨_, _, _, _, hp3, _, hq3⟩
      · subst h0
        exact absurd hn1 (by decide)
      · rcases hr with hr | hr
        · omega
        · rw [hsub, hlt] at hr; cases hr
      · omega

/-! ## The claims, continued -/

/-- C11, at a failing input: with `prefixVisible = suffixVisible = 2^63 - 1`
(the maximum `int`) and `minMaskRatio = 0.5` on "abc", the true sum is far
above 3, yet the `int` sum wraps to -2, rule 2 is skipped, the mask count
wraps to 5, and `result[:prefixLength]` panics instead of "***" being
returned. -/
theorem C11_large_counts_panic :
    (3 : Int) ≤ (2 ^ 63 - 1) + (2 ^ 63 - 1)
      ∧ addInt (2 ^ 63 - 1) (2 ^ 63 - 1) = -2
      ∧ subInt (subInt 3 (2 ^ 63 - 1)) (2 ^ 63 - 1) = 5
      ∧ (New 42 (2 ^ 63 - 1) (2 ^ 63 - 1) (Float64.ofConst 1 2)).Mask [97, 98, 99]
        = .error GoPanic.sliceBounds := by
  decide

/-- C12 (package-level helper). For every string `s` and all `p`, `q`,
`Mask(s, p, q)` is `New('*', p, q, 0.3).Mask(s)`, outputs and panics alike;
in particular `Mask(s, 2, 2)` is `Default().Mask(s)`, and
`Mask("1234567890", 2, 2)` is "12******90". -/
theorem C12_package_mask (s : List Nat) (p q : Int) :
    Mask s p q = (New 0x2A p q (Float64.ofConst 3 10)).Mask s
      ∧ Mask s 2 2 = Default.Mask s
      ∧ Mask [49, 50, 51, 52, 53, 54, 55, 56, 57, 48] 2 2
        = .ok [49, 50, 42, 42, 42, 42, 42, 42, 57, 48] :=
  ⟨rfl, rfl, by decide⟩

/-- C13 (default configuration). `Default()` has mask character `'*'`,
prefix length 2, suffix length 2 and minimum mask ratio the `float64` written
`0.3`, that is `5404319552844595 * 2^-54`; `New(c, p, q, r)` has exactly the
fields `c`, `p`, `q`, `r`. -/
theorem C13_default_and_new (c p q : Int) (r : Float64) :
    Default.MaskChar = 0x2A ∧ Default.PrefixLength = 2 ∧ Default.SuffixLength = 2
      ∧ Default.MinMaskRatio = Float64.ofConst 3 10
      ∧ Default.MinMaskRatio = .fin false 5404319552844595 (-54)
      ∧ (New c p q r).MaskChar = c ∧ (New c p q r).PrefixLength = p
      ∧ (New c p q r).SuffixLength = q ∧ (New c p q r).MinMaskRatio = r :=
  ⟨rfl, rfl, rfl, rfl, by decide, rfl, rfl, rfl, rfl⟩

/-- C14 (negative counts are unguarded). For a non-empty input and a
configuration in which `prefixVisible` or `suffixVisible` is negative, if
neither rule 2 (`prefixLength+suffixLength >= length`) nor rule 3
(`maskRatio < minMaskRatio`) applies, `maskString` produces no output: it
panics on a slice bound or an index out of range. -/
theorem C14_negative_counts_panic (s : List Nat) (c p q : Int) (r : Float64)
    (hn1 : 1 ≤ RuneCountInString s) (hn2 : RuneCountInString s < 2 ^ 63)
    (hq1 : -2 ^ 63 ≤ q) (hq2 : q < 2 ^ 63)
    (hneg : p < 0 ∨ q < 0)
    (hrule2 : ¬ ((RuneCountInString s : Int) ≤ addInt p q))
    (hrule3 : Float64.lt (Float64.div
      (Float64.ofInt (subInt (subInt (RuneCountInString s : Int) p) q))
      (Float64.ofInt (RuneCountInString s : Int))) r = false) :
    maskString s c p q r = .error GoPanic.sliceBounds
      ∨ maskString s c p q r = .error GoPanic.indexOutOfRange := by
  cases h : maskString s c p q r with
  | error e => cases e <;> simp
  | ok out =>
    exfalso
    rcases maskString_ok_cases s c p q r out hq1 hq2 hn2 h with
      ⟨h0, _⟩ | ⟨_, hr, _⟩ | ⟨_, _, _, hp, _, hq, _⟩
    · subst h0
      exact absurd hn1 (by decide)
    · rcases hr with hr | hr
      · exact hrule2 hr
      · rw [hrule3] at hr; cases hr
    · omega

theorem C14_negative_counts_panic_witness :
    maskString [97, 98, 99, 100, 101] 42 (-1) 1 (Float64.ofConst 3 10)
      = .error GoPanic.sliceBounds := by
  rcases C14_negative_counts_panic [97, 98, 99, 100, 101] 42 (-1) 1 (Float64.ofConst 3 10)
    (by decide) (by decide) (by decide) (by decide) (by decide) (by decide) (by decide)
    with h | h
  · exact h
  · exact absurd h (by decide)


theorem copyPrefix_congr (dst src1 src2 : List Int) (hi : Int)
    (hlen : src1.length = src2.length) (htake : src1.take hi.toNat = src2.take hi.toNat) :
    copyPrefix dst src1 hi = copyPrefix dst src2 hi := by
  unfold copyPrefix
  rw [hlen, htake]

theorem copySuffix_congr (dst src1 src2 : List Int) (lo : Int)
    (hlen : src1.length = src2.length)
    (hdrop : 0 ≤ lo → src1.drop lo.toNat = src2.drop lo.toNat) :
    copySuffix dst src1 lo = copySuffix dst src2 lo := by
  unfold copySuffix
  by_cases h : 0 ≤ lo ∧ lo ≤ dst.length
  · rw [if_pos h, if_pos h, hlen, hdrop h.1]
  · rw [if_neg h, if_neg h]

/-- `maskString` reads its input through the rune count, the first
`prefixLength` runes and the last `suffixLength` runes only. -/
theorem maskString_congr (a b : List Nat) (c p q : Int) (r : Float64)
    (hq1 : 0 ≤ q) (hq2 : q < 2 ^ 63)
    (hcount : RuneCountInString a = RuneCountInString b)
    (hn : RuneCountInString a < 2 ^ 63)
    (htake : (stringToRunes a).take p.toNat = (stringToRunes b).take p.toNat)
    (hdrop : (stringToRunes a).drop (RuneCountInString a - q.toNat)
      = (stringToRunes b).drop (RuneCountInString a - q.toNat)) :
    maskString a c p q r = maskString b c p q r := by
  have hlen : (stringToRunes a).length = (stringToRunes b).length := by
    rw [← runeCount_eq_length, ← runeCount_eq_length, hcount]
  have hpre : ∀ dst, copyPrefix dst (stringToRunes a) p = copyPrefix dst (stringToRunes b) p :=
    fun dst => copyPrefix_congr dst _ _ p hlen htake
  have hsuf : ∀ dst, copySuffix dst (stringToRunes a) (subInt (RuneCountInString b : Int) q)
      = copySuffix dst (stringToRunes b) (subInt (RuneCountInString b : Int) q) := by
    intro dst
    refine copySuffix_congr dst _ _ _ hlen ?_
    intro hlo
    have h1 : (subInt (RuneCountInString b : Int) q).toNat = RuneCountInString a - q.toNat := by
      unfold subInt wrapInt64 at hlo ⊢; omega
    rw [h1, hdrop]
  rcases Nat.eq_zero_or_pos (RuneCountInString a) with h0 | hpos
  · have ha := runeCount_eq_zero h0
    have hb := runeCount_eq_zero (hcount ▸ h0)
    rw [ha, hb]
  · unfold maskString
    dsimp only
    rw [hcount]
    simp only [hpre, hsuf]
    have h0 : ¬ ((RuneCountInString b : Int) = 0) := by omega
    rw [if_neg h0, if_neg h0]

theorem maskString_full_congr (a b : List Nat) (c p q : Int) (r : Float64)
    (hcount : RuneCountInString b = RuneCountInString a)
    (hfull : (RuneCountInString a : Int) ≤ addInt p q
      ∨ Float64.lt (Float64.div
          (Float64.ofInt (subInt (subInt (RuneCountInString a : Int) p) q))
          (Float64.ofInt (RuneCountInString a : Int))) r = true) :
    maskString b c p q r = maskString a c p q r := by
  rcases Nat.eq_zero_or_pos (RuneCountInString a) with h0 | hpos
  · have ha := runeCount_eq_zero h0
    have hb := runeCount_eq_zero (hcount.trans h0)
    rw [ha, hb]
  · rcases le_or_lt (RuneCountInString a : Int) (addInt p q) with h2 | h2
    · rw [maskString_rule2 a c p q r hpos h2,
        maskString_rule2 b c p q r (by omega) (by rw [hcount]; exact h2), hcount]
    · have h3 : Float64.lt (Float64.div
          (Float64.ofInt (subInt (subInt (RuneCountInString a : Int) p) q))
          (Float64.ofInt (RuneCountInString a : Int))) r = true := by
        rcases hfull with h | h
        · omega
        · exact h
      rw [maskString_rule3 a c p q r hpos h2 h3,
        maskString_rule3 b c p q r (by omega) (by rw [hcount]; exact h2)
          (by rw [hcount]; exact h3), hcount]

/-- C15 (hidden characters do not influence the output). For non-negative
`prefixVisible = p` and `suffixVisible = q`, two inputs with the same
code-point length that agree on their first `p` and on their last `q` code
points have the same `Masker.Mask` result; and when a full-mask rule (rule 2
or rule 3) applies to an input, every input of the same code-point length
has the same result. -/
theorem C15_noninterference (a b : List Nat) (c p q : Int) (r : Float64)
    (_hp : 0 ≤ p) (hq1 : 0 ≤ q) (hq2 : q < 2 ^ 63)
    (hcount : RuneCountInString a = RuneCountInString b)
    (hn : RuneCountInString a < 2 ^ 63)
    (htake : (stringToRunes a).take p.toNat = (stringToRunes b).take p.toNat)
    (hdrop : (stringToRunes a).drop (RuneCountInString a - q.toNat)
      = (stringToRunes b).drop (RuneCountInString a - q.toNat)) :
    (New c p q r).Mask a = (New c p q r).Mask b
      ∧ (((RuneCountInString a : Int) ≤ addInt p q
          ∨ Float64.lt (Float64.div
              (Float64.ofInt (subInt (subInt (RuneCountInString a : Int) p) q))
              (Float64.ofInt (RuneCountInString a : Int))) r = true) →
        ∀ b2 : List Nat, RuneCountInString b2 = RuneCountInString a →
          (New c p q r).Mask b2 = (New c p q r).Mask a) :=
  ⟨maskString_congr a b c p q r hq1 hq2 hcount hn htake hdrop,
    fun hfull b2 h2 => maskString_full_congr a b2 c p q r h2 hfull⟩

theorem C15_noninterference_witness :
    (New 42 2 2 (Float64.ofConst 3 10)).Mask [49, 50, 51, 52, 53, 54, 55, 56, 57, 48]
      = (New 42 2 2 (Float64.ofConst 3 10)).Mask [49, 50, 97, 98, 99, 100, 101, 102, 57, 48] :=
  (C15_noninterference [49, 50, 51, 52, 53, 54, 55, 56, 57, 48]
    [49, 50, 97, 98, 99, 100, 101, 102, 57, 48] 42 2 2 (Float64.ofConst 3 10)
    (by decide) (by decide) (by decide) (by decide) (by decide) (by decide) (by decide)).1

theorem partialMask_append (A M B : List Int) (c : Int) :
    partialMask (A ++ M ++ B) c A.length B.length
      = A ++ List.replicate M.length c ++ B := by
  unfold partialMask
  have h1 : (A ++ M ++ B).length - A.length - B.length = M.length := by
    simp only [List.length_append]; omega
  have h2 : (A ++ M ++ B).length - B.length = (A ++ M).length := by
    simp only [List.length_append]; omega
  rw [h1, h2, List.drop_left, List.append_assoc A M B, List.take_left]

theorem normRune_map_of_valid (rs : List Int) (h : ∀ x ∈ rs, validRune x) :
    rs.map normRune = rs := by
  conv_rhs => rw [← List.map_id rs]
  exact List.map_congr_left (fun x hx => normRune_of_valid (h x hx))

/-- Masking the partial mask again gives the same string. -/
theorem partialMask_again (s : List Nat) (c : Int) (p q : Nat)
    (hpq : p + q < RuneCountInString s) :
    runesToString (partialMask (stringToRunes (runesToString
        (partialMask (stringToRunes s) c p q))) c p q)
      = runesToString (partialMask (stringToRunes s) c p q) := by
  have hlen : (stringToRunes s).length = RuneCountInString s := (runeCount_eq_length s).symm
  have hvalid := stringToRunes_valid s
  have hA : ((stringToRunes s).take p).length = p := by
    rw [List.length_take, hlen]; omega
  have hB : ((stringToRunes s).drop ((stringToRunes s).length - q)).length = q := by
    rw [List.length_drop, hlen]; omega
  have hdec : stringToRunes (runesToString (partialMask (stringToRunes s) c p q))
      = (stringToRunes s).take p
        ++ List.replicate ((stringToRunes s).length - p - q) (normRune c)
        ++ (stringToRunes s).drop ((stringToRunes s).length - q) := by
    rw [stringToRunes_runesToString]
    unfold partialMask
    rw [List.map_append, List.map_append, List.map_replicate,
      normRune_map_of_valid _ (fun x hx => hvalid x (List.mem_of_mem_take hx)),
      normRune_map_of_valid _ (fun x hx => hvalid x (List.mem_of_mem_drop hx))]
  have hagain := partialMask_append ((stringToRunes s).take p)
    (List.replicate ((stringToRunes s).length - p - q) (normRune c))
    ((stringToRunes s).drop ((stringToRunes s).length - q)) c
  rw [hA, hB, List.length_replicate] at hagain
  rw [hdec, hagain]
  rfl

/-- C17 (idempotence). For non-negative `prefixVisible` and `suffixVisible`,
masking a string `Masker.Mask` has returned returns that same string; and
`Masker.Mask` does return a string whenever the sum of the two fits an
`int`. -/
theorem C17_idempotent (s : List Nat) (c p q : Int) (r : Float64)
    (hp : 0 ≤ p) (hq1 : 0 ≤ q) (hq2 : q < 2 ^ 63) (hn : RuneCountInString s < 2 ^ 62) :
    (∀ out, (New c p q r).Mask s = .ok out → (New c p q r).Mask out = .ok out)
      ∧ (p + q < 2 ^ 63 → ∃ out, (New c p q r).Mask s = .ok out) := by
  refine ⟨?_, fun hfit => maskString_returns s c p q r hp hq1 hfit (by omega)⟩
  intro out h
  rcases maskString_ok_cases s c p q r out (by omega) hq2 (by omega) h with
    ⟨_, h0⟩ | ⟨hpos, hr, hout⟩ | ⟨hpos, h2, h3, hp1, hp2, hq3, hq4⟩
  · subst h0
    exact maskString_rule1 c p q r
  · have hcount : RuneCountInString out = RuneCountInString s := by
      rw [hout, runeCount_stringsRepeat]
    rcases hr with hr | hr
    · have := maskString_rule2 out c p q r (by omega) (by rw [hcount]; exact hr)
      rw [hcount, ← hout] at this
      exact this
    · rcases le_or_lt (RuneCountInString s : Int) (addInt p q) with h2 | h2
      · have := maskString_rule2 out c p q r (by omega) (by rw [hcount]; exact h2)
        rw [hcount, ← hout] at this
        exact this
      · have := maskString_rule3 out c p q r (by omega) (by rw [hcount]; exact h2)
          (by rw [hcount]; exact hr)
        rw [hcount, ← hout] at this
        exact this
  · obtain ⟨hpq, hlt, hmask⟩ := maskString_ok_partial s c p q r hn h2 h3 hp1 hp2 hq3 hq4
    have hout : out = runesToString (partialMask (stringToRunes s) c p.toNat q.toNat) := by
      have : (Except.ok out : Except GoPanic (List Nat))
          = .ok (runesToString (partialMask (stringToRunes s) c p.toNat q.toNat)) :=
        h.symm.trans hmask
      exact Except.ok.inj this
    have hcount : RuneCountInString out = RuneCountInString s :=
      maskString_runeCount s c p q r out h
    have h4 := maskString_rule4 out c p q r hp hq1 (by rw [hcount]; exact hpq)
      (by omega) (by rw [hcount]; exact hlt)
    show maskString out c p q r = .ok out
    rw [h4]
    conv_rhs => rw [hout]
    rw [hout, partialMask_again s c p.toNat q.toNat (by omega)]

theorem C17_idempotent_witness :
    (New 42 2 2 (Float64.ofConst 3 10)).Mask [49, 50, 42, 42, 42, 42, 42, 42, 57, 48]
      = .ok [49, 50, 42, 42, 42, 42, 42, 42, 57, 48] :=
  (C17_idempotent [49, 50, 51, 52, 53, 54, 55, 56, 57, 48] 42 2 2 (Float64.ofConst 3 10)
    (by decide) (by decide) (by decide) (by decide)).1 _ (by decide)


namespace Float64

theorem roundHalfEven_le_half (num den : Nat) :
    2 * (roundHalfEven num den * den) ≤ 2 * num + den := by
  have hdm := Nat.div_add_mod num den
  unfold roundHalfEven
  dsimp only
  generalize num / den = k at hdm ⊢
  generalize num % den = rm at hdm ⊢
  have hcomm : k * den = den * k := Nat.mul_comm k den
  split_ifs with h1 h2 h3
  · rw [hcomm]; omega
  · rw [Nat.add_mul, hcomm]; omega
  · rw [hcomm]; omega
  · rw [Nat.add_mul, hcomm]; omega

/-- Where the last place is 52 below the leading bit, rounding does not
raise a quotient by more than one part in `2^53`. -/
theorem roundSig_le_rel (a b : Nat) (ha : 0 < a) (hb : 0 < b)
    (he : ulpExp a b = floorLog2 a b - 52) :
    (roundSig a b : ℚ) * (2 : ℚ) ^ (ulpExp a b)
      ≤ (a : ℚ) / b * (1 + 1 / (2 : ℚ) ^ (53 : Nat)) := by
  have hden : 0 < b * 2 ^ (ulpExp a b).toNat := Nat.mul_pos hb (pow_pos (by norm_num) _)
  have hdenq : (0 : ℚ) < ((b * 2 ^ (ulpExp a b).toNat : Nat) : ℚ) := by exact_mod_cast hden
  have hpe : (0 : ℚ) < (2 : ℚ) ^ (ulpExp a b) := two_zpow_pos _
  -- the scaled quotient `y`, at least `2^52`
  have hy : ((a * 2 ^ (-(ulpExp a b)).toNat : Nat) : ℚ) / ((b * 2 ^ (ulpExp a b).toNat : Nat) : ℚ)
      = (a : ℚ) / b * (2 : ℚ) ^ (-(ulpExp a b)) := cast_scale a b (ulpExp a b)
  have hhalf : (2 : ℚ) * ((roundSig a b : ℚ) * ((b * 2 ^ (ulpExp a b).toNat : Nat) : ℚ))
      ≤ 2 * ((a * 2 ^ (-(ulpExp a b)).toNat : Nat) : ℚ) + ((b * 2 ^ (ulpExp a b).toNat : Nat) : ℚ) := by
    have := roundHalfEven_le_half (a * 2 ^ (-(ulpExp a b)).toNat) (b * 2 ^ (ulpExp a b).toNat)
    unfold roundSig
    exact_mod_cast this
  have hm : (roundSig a b : ℚ) ≤ (a : ℚ) / b * (2 : ℚ) ^ (-(ulpExp a b)) + 1 / 2 := by
    rw [← hy, div_add_div _ _ hdenq.ne' (by norm_num : (2 : ℚ) ≠ 0), le_div_iff₀ (by positivity)]
    linarith
  have hlow : (2 : ℚ) ^ (52 : Int) ≤ (a : ℚ) / b * (2 : ℚ) ^ (-(ulpExp a b)) := by
    have h1 := (floorLog2_spec a b ha hb).1
    have h2 : floorLog2 a b = 52 + ulpExp a b := by omega
    rw [h2, zpow_add₀ (by norm_num)] at h1
    rw [zpow_neg, ← div_eq_mul_inv, le_div_iff₀ hpe]
    exact h1
  have h52 : (2 : ℚ) ^ (52 : Int) = 2 ^ (52 : Nat) := by norm_num
  rw [h52] at hlow
  have hinv : (2 : ℚ) ^ (-(ulpExp a b)) * (2 : ℚ) ^ (ulpExp a b) = 1 := by
    rw [← zpow_add₀ (by norm_num)]; simp
  -- multiply the bound on the significand back by `2^e`
  have hx : (0 : ℚ) ≤ (a : ℚ) / b := by positivity
  have key : (roundSig a b : ℚ)
      ≤ (a : ℚ) / b * (2 : ℚ) ^ (-(ulpExp a b)) * (1 + 1 / (2 : ℚ) ^ (53 : Nat)) := by
    have : (1 : ℚ) / 2 ≤ (a : ℚ) / b * (2 : ℚ) ^ (-(ulpExp a b)) * (1 / (2 : ℚ) ^ (53 : Nat)) := by
      have h3 : (2 : ℚ) ^ (52 : Nat) * (1 / (2 : ℚ) ^ (53 : Nat)) = 1 / 2 := by norm_num
      rw [← h3]
      exact mul_le_mul_of_nonneg_right hlow (by positivity)
    linarith
  calc (roundSig a b : ℚ) * (2 : ℚ) ^ (ulpExp a b)
      ≤ (a : ℚ) / b * (2 : ℚ) ^ (-(ulpExp a b)) * (1 + 1 / (2 : ℚ) ^ (53 : Nat))
          * (2 : ℚ) ^ (ulpExp a b) := mul_le_mul_of_nonneg_right key hpe.le
    _ = (a : ℚ) / b * (1 + 1 / (2 : ℚ) ^ (53 : Nat))
          * ((2 : ℚ) ^ (-(ulpExp a b)) * (2 : ℚ) ^ (ulpExp a b)) := by ring
    _ = (a : ℚ) / b * (1 + 1 / (2 : ℚ) ^ (53 : Nat)) := by rw [hinv, mul_one]

/-- The mask ratio of `1 ≤ mc ≤ n ≤ 2^53` is finite and exceeds `mc / n` by
at most one part in `2^53`. -/
theorem maskRatio_le_rel (mc n : Nat) (h1 : 0 < mc) (h2 : mc ≤ n) (h4 : n ≤ 2 ^ 53) :
    ∃ m e, div (ofInt (mc : Int)) (ofInt (n : Int)) = fin false m e
      ∧ (m : ℚ) * (2 : ℚ) ^ e ≤ (mc : ℚ) / n * (1 + 1 / (2 : ℚ) ^ (53 : Nat)) := by
  obtain ⟨a, b, ha, hb, hab, hdiv⟩ := maskRatio_eq mc n h1 (by omega) (by omega) h4
  have hspec := floorLog2_spec a b ha hb
  have hnq : (0 : ℚ) < (n : ℚ) := by exact_mod_cast (by omega : 0 < n)
  have hmcq : (1 : ℚ) ≤ (mc : ℚ) := by exact_mod_cast h1
  have hle1 : (a : ℚ) / b ≤ 1 := by
    rw [hab, div_le_one hnq]; exact_mod_cast h2
  have hge : (2 : ℚ) ^ (-53 : Int) ≤ (a : ℚ) / b := by
    rw [hab, le_div_iff₀ hnq]
    have hn53 : (n : ℚ) ≤ (2 : ℚ) ^ (53 : Nat) := by exact_mod_cast h4
    have : (2 : ℚ) ^ (-53 : Int) * (2 : ℚ) ^ (53 : Nat) = 1 := by norm_num
    nlinarith [two_zpow_pos (-53)]
  -- the exponent of the quotient lies between -53 and 0
  have hf1 : floorLog2 a b ≤ 0 := by
    by_contra hc
    have : (2 : ℚ) ^ (1 : Int) ≤ (2 : ℚ) ^ (floorLog2 a b) :=
      zpow_le_zpow_right₀ (by norm_num) (by omega)
    have h3 : (2 : ℚ) ^ (1 : Int) = 2 := by norm_num
    linarith [hspec.1]
  have hf2 : -54 ≤ floorLog2 a b := by
    by_contra hc
    have : (2 : ℚ) ^ (floorLog2 a b + 1) ≤ (2 : ℚ) ^ (-53 : Int) :=
      zpow_le_zpow_right₀ (by norm_num) (by omega)
    exact absurd (lt_of_lt_of_le hspec.2 (le_trans this hge)) (lt_irrefl _)
  have he : ulpExp a b = floorLog2 a b - 52 := by unfold ulpExp; omega
  have hno : overflows (roundSig a b) (ulpExp a b) = false := by
    unfold overflows
    rw [decide_eq_false_iff_not]
    omega
  refine ⟨roundSig a b, ulpExp a b, ?_, ?_⟩
  · rw [hdiv, roundRat_eq false a b ha, hno]; rfl
  · rw [← hab]; exact roundSig_le_rel a b ha hb he

end Float64

theorem count_partialMask (runes : List Int) (c : Int) (p q : Nat) :
    runes.length - p - q ≤ (partialMask runes c p q).count c := by
  unfold partialMask
  rw [List.count_append, List.count_append, List.count_replicate_self]
  omega

/-- C16, as stated, fails: on "abcde" with 2 and 2 visible code points and
`minMaskRatio` the `float64` written `0.2` (a little above 1/5), the
`float64` quotient `1.0 / 5.0` is that same `float64`, the partial mask
"ab*de" is returned, and its single mask symbol is fewer than
`minMaskRatio * 5`. -/
theorem C16_counterexample :
    (New 42 2 2 (Float64.ofConst 1 5)).Mask [97, 98, 99, 100, 101]
        = .ok [97, 98, 42, 100, 101]
      ∧ (stringToRunes [97, 98, 42, 100, 101]).count 42 = 1
      ∧ Float64.ofConst 1 5 = .fin false 7205759403792794 (-55)
      ∧ (Float64.ofConst 1 5).leRat 1
      ∧ ((1 : Nat) : ℚ) < Float64.toRat (Float64.ofConst 1 5) * ((5 : Nat) : ℚ) := by
  have hr : Float64.ofConst 1 5 = .fin false 7205759403792794 (-55) := by decide
  refine ⟨by decide, by decide, hr, ?_, ?_⟩
  · rw [hr]; norm_num [Float64.leRat, Float64.toRat]
  · rw [hr]; norm_num [Float64.toRat]

/-- C16 (minimum redaction, amended). For a non-empty input of `n` code
points and non-negative `prefixVisible`, `suffixVisible`, every string
`Masker.Mask` returns holds the mask symbol in at least one position, and,
when `minMaskRatio <= 1`, in at least `minMaskRatio * n / (1 + 2^-53)`
positions; and `Masker.Mask` does return a string whenever the sum of the two
lengths fits an `int`. -/
theorem C16_minimum_redaction (s : List Nat) (c p q : Int) (r : Float64)
    (hc : validRune c) (hn1 : 1 ≤ RuneCountInString s) (hn2 : RuneCountInString s ≤ 2 ^ 53)
    (hp : 0 ≤ p) (hq1 : 0 ≤ q) (hq2 : q < 2 ^ 63) :
    (∀ out, (New c p q r).Mask s = .ok out →
        1 ≤ (stringToRunes out).count c
          ∧ (r.leRat 1 → r.leRat ((((stringToRunes out).count c : Nat) : ℚ)
              * (1 + 1 / (2 : ℚ) ^ (53 : Nat)) / ((RuneCountInString s : Nat) : ℚ))))
      ∧ (p + q < 2 ^ 63 → ∃ out, (New c p q r).Mask s = .ok out) := by
  refine ⟨?_, fun hfit => maskString_returns s c p q r hp hq1 hfit (by omega)⟩
  intro out h
  have hnq : (0 : ℚ) < ((RuneCountInString s : Nat) : ℚ) := by exact_mod_cast hn1
  have heps : (0 : ℚ) < 1 / (2 : ℚ) ^ (53 : Nat) := by positivity
  rcases maskString_ok_cases s c p q r out (by omega) hq2 (by omega) h with
    ⟨h0, _⟩ | ⟨hpos, hr, hout⟩ | ⟨hpos, h2, h3, hp1, hp2, hq3, hq4⟩
  · subst h0
    exact absurd hn1 (by decide)
  · -- the full mask: every position holds the mask symbol
    have hcnt : (stringToRunes out).count c = RuneCountInString s := by
      rw [hout, stringToRunes_stringsRepeat, normRune_of_valid hc, List.count_replicate_self]
    rw [hcnt]
    refine ⟨hn1, fun hle => ?_⟩
    cases r with
    | nan => exact absurd hle (by simp [Float64.leRat])
    | inf neg => exact hle
    | fin neg m e =>
      have hle1 : Float64.toRat (Float64.fin neg m e) ≤ 1 := hle
      show Float64.toRat (Float64.fin neg m e) ≤ _
      rw [le_div_iff₀ hnq]
      nlinarith
  · obtain ⟨hpq, hlt, hmask⟩ := maskString_ok_partial s c p q r (by omega) h2 h3 hp1 hp2 hq3 hq4
    have hout : out = runesToString (partialMask (stringToRunes s) c p.toNat q.toNat) := by
      have : (Except.ok out : Except GoPanic (List Nat))
          = .ok (runesToString (partialMask (stringToRunes s) c p.toNat q.toNat)) :=
        h.symm.trans hmask
      exact Except.ok.inj this
    have hdec : stringToRunes out = partialMask (stringToRunes s) c p.toNat q.toNat := by
      rw [hout]; exact stringToRunes_partialMask s c p.toNat q.toNat hc
    have hmcle := count_partialMask (stringToRunes s) c p.toNat q.toNat
    rw [← runeCount_eq_length, ← hdec] at hmcle
    refine ⟨by omega, fun hle => ?_⟩
    have hmc : (RuneCountInString s : Int) - p - q
        = ((RuneCountInString s - p.toNat - q.toNat : Nat) : Int) := by omega
    rw [hmc] at hlt
    obtain ⟨m, e, hdiv, hrel⟩ := Float64.maskRatio_le_rel
      (RuneCountInString s - p.toNat - q.toNat) (RuneCountInString s) (by omega) (by omega) hn2
    rw [hdiv] at hlt
    have hcq : ((RuneCountInString s - p.toNat - q.toNat : Nat) : ℚ)
        ≤ (((stringToRunes out).count c : Nat) : ℚ) := by exact_mod_cast hmcle
    cases r with
    | nan => exact absurd hle (by simp [Float64.leRat])
    | inf neg => exact hle
    | fin neg m2 e2 =>
      show Float64.toRat (Float64.fin neg m2 e2) ≤ _
      have hnlt : ¬ (Float64.toRat (Float64.fin false m e)
          < Float64.toRat (Float64.fin neg m2 e2)) := by
        intro hc2
        rw [← Float64.lt_fin_iff, hlt] at hc2
        cases hc2
      rw [Float64.toRat_fin_pos] at hnlt
      have hval : Float64.toRat (Float64.fin neg m2 e2)
          ≤ ((RuneCountInString s - p.toNat - q.toNat : Nat) : ℚ) / (RuneCountInString s : ℚ)
            * (1 + 1 / (2 : ℚ) ^ (53 : Nat)) := le_trans (not_lt.1 hnlt) hrel
      refine le_trans hval ?_
      rw [div_mul_eq_mul_div]
      exact div_le_div_of_nonneg_right
        (mul_le_mul_of_nonneg_right hcq (by positivity)) hnq.le

theorem C16_minimum_redaction_witness :
    1 ≤ (stringToRunes [49, 50, 42, 42, 42, 42, 42, 42, 57, 48]).count 42 :=
  ((C16_minimum_redaction [49, 50, 51, 52, 53, 54, 55, 56, 57, 48] 42 2 2
    (Float64.ofConst 3 10) (by decide) (by decide) (by decide) (by decide) (by decide)
    (by decide)).1 _ (by decide)).1

/-! ## Code points, not bytes -/

/-- Whatever `maskString` returns on the encoding of valid code points, for
non-negative lengths, is the encoding of the code-point mask with
the `float64` ratio. -/
theorem maskString_runesToString_ok (runes : List Int) (c : Int) (p q : Nat) (r : Float64)
    (out : List Nat) (hrunes : ∀ x ∈ runes, validRune x)
    (hq : q < 2 ^ 63) (hlen : runes.length < 2 ^ 62)
    (h : maskString (runesToString runes) c (p : Int) (q : Int) r = .ok out) :
    out = runesToString (maskCodePointsF64 runes c p q r) := by
  by_cases hfit : p + q < 2 ^ 63
  · rw [maskString_runesToString_of_fits runes c p q r hrunes hfit (by omega)] at h
    exact (Except.ok.inj h).symm
  · have hcount : RuneCountInString (runesToString runes) = runes.length :=
      runeCount_runesToString runes
    have hmask : maskCodePointsF64 runes c p q r
        = if runes.length = 0 then runes else List.replicate runes.length c := by
      unfold maskCodePointsF64
      split_ifs with h1 h2 h3
      · rfl
      · rfl
      · omega
      · omega
    rcases maskString_ok_cases _ c p q r out (by omega) (by omega) (by rw [hcount]; omega) h
      with ⟨hs, ho⟩ | ⟨hn, _, ho⟩ | ⟨_, _, _, _, hp2, _, hq2⟩
    · have h0 : runes.length = 0 := by rw [← hcount, hs]; rfl
      rw [hmask, if_pos h0, ho, List.length_eq_zero.1 h0]; rfl
    · rw [hcount] at hn ho
      rw [hmask, if_neg (by omega), ho, stringsRepeat_eq]
    · rw [hcount] at hp2 hq2
      omega

/-- The code-point mask with the `float64` ratio differs from the mask in the
specification's words only where the exact ratio is strictly below
`minMaskRatio` and the rounded quotient is not: there the words give the
full mask and the `float64` rule the partial mask. -/
theorem maskCodePointsF64_eq_or (runes : List Int) (c : Int) (p q : Nat) (r : Float64)
    (hv : r.valid) (hlen : runes.length ≤ 2 ^ 53) :
    maskCodePointsF64 runes c p q r = maskCodePoints runes c p q r
      ∨ (maskCodePoints runes c p q r = List.replicate runes.length c
          ∧ maskCodePointsF64 runes c p q r = partialMask runes c p q) := by
  unfold maskCodePointsF64 maskCodePoints
  by_cases h1 : runes.length = 0
  · rw [if_pos h1, if_pos h1]; exact Or.inl rfl
  rw [if_neg h1, if_neg h1]
  by_cases h2 : p + q ≥ runes.length
  · rw [if_pos h2, if_pos h2]; exact Or.inl rfl
  rw [if_neg h2, if_neg h2]
  by_cases h3 : r.gtRat ((((runes.length : Int) - p - q : Int) : ℚ) / ((runes.length : Nat) : ℚ))
  · rw [if_pos h3]
    split_ifs
    · exact Or.inl rfl
    · exact Or.inr ⟨rfl, rfl⟩
  · rw [if_neg h3]
    left
    have hmc : (runes.length : Int) - p - q = ((runes.length - p - q : Nat) : Int) := by omega
    have hfalse : Float64.lt (Float64.div (Float64.ofInt ((runes.length : Int) - p - q))
        (Float64.ofInt (runes.length : Int))) r = false := by
      cases r with
      | nan =>
        cases (Float64.div (Float64.ofInt ((runes.length : Int) - p - q))
          (Float64.ofInt (runes.length : Int))) <;> rfl
      | inf neg =>
        rw [hmc]
        refine Float64.maskRatio_not_lt _ _ (by omega) (by omega) (by omega) hlen _ hv ?_
        cases neg
        · exact absurd rfl h3
        · rfl
      | fin neg m e =>
        rw [hmc]
        refine Float64.maskRatio_not_lt _ _ (by omega) (by omega) (by omega) hlen _ hv ?_
        rw [hmc] at h3
        simp only [Float64.gtRat, not_lt, Int.cast_natCast] at h3
        exact h3
    rw [hfalse]
    rfl

/-- C7, as stated, fails: the five code points "a", "é", "あ", U+1F600 and
"■" take 1, 2, 3, 4 and 3 bytes; with 2 and 1 visible code points the exact
ratio 2/5 is strictly below the `float64` written `0.4`, so the code-point
mask in the specification's words is the full mask, yet the `float64`
quotient `2.0 / 5.0` is that same `float64` and masking the UTF-8 string
returns the encoding of the partial mask. -/
theorem C7_counterexample :
    (∀ x ∈ [0x61, 0xE9, 0x3042, 0x1F600, 0x25A0], validRune x)
      ∧ validRune 42
      ∧ runesToString [0x61, 0xE9, 0x3042, 0x1F600, 0x25A0]
        = [0x61, 0xC3, 0xA9, 0xE3, 0x81, 0x82, 0xF0, 0x9F, 0x98, 0x80, 0xE2, 0x96, 0xA0]
      ∧ Float64.ofConst 2 5 = .fin false 7205759403792794 (-54)
      ∧ maskCodePoints [0x61, 0xE9, 0x3042, 0x1F600, 0x25A0] 42 2 1 (Float64.ofConst 2 5)
        = [42, 42, 42, 42, 42]
      ∧ (New 42 2 1 (Float64.ofConst 2 5)).Mask
          (runesToString [0x61, 0xE9, 0x3042, 0x1F600, 0x25A0])
        = .ok (runesToString [0x61, 0xE9, 42, 42, 0x25A0])
      ∧ (New 42 2 1 (Float64.ofConst 2 5)).Mask
          (runesToString [0x61, 0xE9, 0x3042, 0x1F600, 0x25A0])
        ≠ .ok (runesToString
            (maskCodePoints [0x61, 0xE9, 0x3042, 0x1F600, 0x25A0] 42 2 1 (Float64.ofConst 2 5))) := by
  have hr : Float64.ofConst 2 5 = .fin false 7205759403792794 (-54) := by decide
  have hm : maskCodePoints [0x61, 0xE9, 0x3042, 0x1F600, 0x25A0] 42 2 1 (Float64.ofConst 2 5)
      = [42, 42, 42, 42, 42] := by
    rw [hr]
    unfold maskCodePoints
    rw [if_neg (by decide), if_neg (by decide), if_pos (by
      norm_num [Float64.gtRat, Float64.toRat])]
    rfl
  refine ⟨by decide, by decide, by decide, hr, hm, by decide, ?_⟩
  rw [hm]
  decide

/-- C7 (code points, not bytes; amended). For a sequence of valid code
points, a valid mask symbol and non-negative `prefixVisible`,
`suffixVisible`: the UTF-8 string that encodes the sequence counts and
decodes to exactly these code points, whatever their byte widths; every
string that masking it returns is the UTF-8 encoding of the code-point mask
of the sequence in which rule 3 compares the `float64` quotient
`float64(maskCount) / float64(length)` with `minMaskRatio`; masking does
return that string whenever `prefixVisible + suffixVisible` fits an `int`;
that encoding decodes to the mask, one code point for one code point; and
this mask is the mask in the specification's words except where the exact
ratio is strictly below `minMaskRatio` and the rounded quotient is not. -/
theorem C7_code_point_semantics (runes : List Int) (c : Int) (p q : Nat) (r : Float64)
    (hrunes : ∀ x ∈ runes, validRune x) (hc : validRune c)
    (hq : q < 2 ^ 63) (hlen : runes.length < 2 ^ 62) :
    RuneCountInString (runesToString runes) = runes.length
      ∧ stringToRunes (runesToString runes) = runes
      ∧ (∀ out, (New c (p : Int) (q : Int) r).Mask (runesToString runes) = .ok out →
          out = runesToString (maskCodePointsF64 runes c p q r))
      ∧ (p + q < 2 ^ 63 →
          (New c (p : Int) (q : Int) r).Mask (runesToString runes)
            = .ok (runesToString (maskCodePointsF64 runes c p q r)))
      ∧ stringToRunes (runesToString (maskCodePointsF64 runes c p q r))
        = maskCodePointsF64 runes c p q r
      ∧ (maskCodePointsF64 runes c p q r).length = runes.length
      ∧ (r.valid → runes.length ≤ 2 ^ 53 →
          maskCodePointsF64 runes c p q r = maskCodePoints runes c p q r
            ∨ (maskCodePoints runes c p q r = List.replicate runes.length c
                ∧ maskCodePointsF64 runes c p q r = partialMask runes c p q)) :=
  ⟨runeCount_runesToString runes, stringToRunes_runesToString_valid runes hrunes,
    fun out h => maskString_runesToString_ok runes c p q r out hrunes hq hlen h,
    fun hfit => maskString_runesToString_of_fits runes c p q r hrunes hfit (by omega),
    stringToRunes_runesToString_valid _ (maskCodePointsF64_valid runes c p q r hrunes hc),
    maskCodePointsF64_length runes c p q r,
    fun hv hn => maskCodePointsF64_eq_or runes c p q r hv hn⟩

theorem C7_code_point_semantics_witness :
    (New 42 2 2 (Float64.ofConst 3 10)).Mask
        [0xF0, 0x9F, 0x98, 0x80, 0xF0, 0x9F, 0x98, 0x81, 0xF0, 0x9F, 0x98, 0x82,
         0xF0, 0x9F, 0x98, 0x83, 0xF0, 0x9F, 0x98, 0x84, 0xF0, 0x9F, 0x98, 0x85,
         0xF0, 0x9F, 0x98, 0x86, 0xF0, 0x9F, 0x98, 0x87]
      = .ok [0xF0, 0x9F, 0x98, 0x80, 0xF0, 0x9F, 0x98, 0x81, 42, 42, 42, 42,
         0xF0, 0x9F, 0x98, 0x86, 0xF0, 0x9F, 0x98, 0x87] := by
  have h := (C7_code_point_semantics
    [0x1F600, 0x1F601, 0x1F602, 0x1F603, 0x1F604, 0x1F605, 0x1F606, 0x1F607] 42 2 2
    (Float64.ofConst 3 10) (by decide) (by decide) (by decide) (by decide)).2.2.2.1 (by decide)
  have henc : runesToString
      [0x1F600, 0x1F601, 0x1F602, 0x1F603, 0x1F604, 0x1F605, 0x1F606, 0x1F607]
      = [0xF0, 0x9F, 0x98, 0x80, 0xF0, 0x9F, 0x98, 0x81, 0xF0, 0x9F, 0x98, 0x82,
         0xF0, 0x9F, 0x98, 0x83, 0xF0, 0x9F, 0x98, 0x84, 0xF0, 0x9F, 0x98, 0x85,
         0xF0, 0x9F, 0x98, 0x86, 0xF0, 0x9F, 0x98, 0x87] := by decide
  rw [henc] at h
  exact h.trans (by decide)

end Peekmask
